import Mathlib

/-!
Verification of the LSM-tree key-value engine (steps 2-5 of the repository).

The JavaScript sources are shallowly embedded:
* JS strings (keys) are lists of UTF-16 code units (`Str`); the JS relational
  operators `<`, `<=` on strings compare code units lexicographically (`strLt`,
  `strLe`).
* JS runtime values that flow through the engine are modelled by `JSV`:
  `undef` is `undefined`, `symMem` is the unique symbol
  `MemTable.TOMBSTONE = Symbol('TOMBSTONE')` (step3/memtable.js), `symFor` is
  the interned symbol `Symbol.for('TOMBSTONE')` used by the SSTable writer and
  reader (step4), and `json j` is a JSON-serializable value.  `symMem` and
  `symFor` are distinct values, exactly as in the source.
* `JSON.stringify` of an object drops properties whose value is a symbol or
  `undefined`; a serialized entry therefore carries `Option Json` — `none`
  means the `value` property is absent, and reading `.value` back yields
  `undefined`.
* JS `Map` is an insertion-ordered association list (`JsMap`): `set` updates
  in place, inserting new keys at the end; iteration follows that order.
* `String.prototype.localeCompare` (used by `Array.sort` callbacks in
  lsm-tree.js) is modelled by `localeCompare`, the host's default ICU
  collation restricted to ASCII: case-insensitive primary comparison with a
  lowercase-before-uppercase tie break.  This deliberately differs from code
  unit order (e.g. "a" sorts before "B").
-/

namespace KVS

/-- A JS string as its list of UTF-16 code units. -/
abbrev Str := List Nat

/-- Convert a Lean string literal (ASCII in all uses) to code units. -/
def strOf (s : String) : Str := s.data.map Char.toNat

/-- JS `a < b` on strings: lexicographic comparison of code units. -/
def strLt : Str → Str → Bool
  | _, [] => false
  | [], _ :: _ => true
  | a :: as, b :: bs => a < b || (a == b && strLt as bs)

/-- JS `a <= b` on strings (equivalently `!(b < a)`). -/
def strLe (a b : Str) : Bool := !(strLt b a)

/-- A JSON-serializable value (what `JSON.stringify`/`JSON.parse` round-trip):
a string or a number suffices for everything the claims exercise. -/
inductive Json where
  | str (s : Str)
  | num (n : Int)
deriving DecidableEq

/-- A JS runtime value flowing through the engine: `undefined`, the MemTable's
unique tombstone `Symbol('TOMBSTONE')`, the SSTable modules' interned tombstone
`Symbol.for('TOMBSTONE')`, or a JSON-serializable value.  The two symbols are
distinct JS values (`Symbol(x) !== Symbol.for(x)`). -/
inductive JSV where
  | undef
  | symMem
  | symFor
  | json (j : Json)
deriving DecidableEq

/-- The literal string `'__TOMBSTONE__'` used on disk. -/
def tombstoneStr : Str := strOf "__TOMBSTONE__"

/-- `typeof v === 'symbol'`. -/
def JSV.isSymbol : JSV → Bool
  | .symMem => true
  | .symFor => true
  | _ => false

/-! ### The host's `String.prototype.localeCompare`

Modelled from the default ICU collation Node.js uses, restricted to the ASCII
keys appearing in this development: primary comparison is case-insensitive
(`caseFold`), ties are broken by case with lowercase before uppercase
(`caseVar`).  The essential property is that this order disagrees with code
unit order on mixed-case keys: `"a".localeCompare("B") < 0` although
`"B" < "a"` holds for code units. -/

def caseFold (c : Nat) : Nat := if 65 ≤ c ∧ c ≤ 90 then c + 32 else c

def caseVar (c : Nat) : Nat := if 65 ≤ c ∧ c ≤ 90 then 1 else 0

def lexCmpN : List Nat → List Nat → Ordering
  | [], [] => .eq
  | [], _ :: _ => .lt
  | _ :: _, [] => .gt
  | a :: as, b :: bs => if a < b then .lt else if b < a then .gt else lexCmpN as bs

def localeCompare (a b : Str) : Ordering :=
  let p := lexCmpN (a.map caseFold) (b.map caseFold)
  if p = .eq then lexCmpN (a.map caseVar) (b.map caseVar) else p

def insertCmp (cmp : α → α → Ordering) (x : α) : List α → List α
  | [] => [x]
  | y :: ys => if cmp x y = .gt then y :: insertCmp cmp x ys else x :: y :: ys

def jsSortBy (cmp : α → α → Ordering) (l : List α) : List α :=
  l.foldr (insertCmp cmp) []

/-- `Map.prototype.set`: update in place if the key exists, append otherwise. -/
def JsMap.set : List (Str × α) → Str → α → List (Str × α)
  | [], k, v => [(k, v)]
  | (k', v') :: rest, k, v =>
    if k' = k then (k', v) :: rest else (k', v') :: JsMap.set rest k v

/-- `Map.prototype.get` (`none` = key absent, i.e. JS `undefined` result). -/
def JsMap.get : List (Str × α) → Str → Option α
  | [], _ => none
  | (k', v') :: rest, k => if k' = k then some v' else JsMap.get rest k

/-- `Map.prototype.delete`: remove the entry for the key. -/
def JsMap.del : List (Str × α) → Str → List (Str × α)
  | [], _ => []
  | (k', v') :: rest, k => if k' = k then rest else (k', v') :: JsMap.del rest k

/-- `Map.prototype.has`. -/
def JsMap.hasKey (m : List (Str × α)) (k : Str) : Bool := (JsMap.get m k).isSome

/-- The value the last binding for `k` in `L` carries (`none` if no binding). -/
def lastVal (L : List (Str × α)) (k : Str) : Option α :=
  L.foldl (fun acc e => if e.1 = k then some e.2 else acc) none

/-- Explicit or-else on `Option` (later `Map.set` wins over earlier state). -/
def orElseO : Option α → Option α → Option α
  | some x, _ => some x
  | none, b => b

def SkipList.insert : List (Str × JSV) → Str → JSV → List (Str × JSV)
  | [], k, v => [(k, v)]
  | (k', v') :: rest, k, v =>
    if strLt k' k then (k', v') :: SkipList.insert rest k v
    else if k' = k then (k, v) :: rest
    else (k, v) :: (k', v') :: rest

def SkipList.get : List (Str × JSV) → Str → JSV
  | [], _ => .undef
  | (k', v') :: rest, k => if k' = k then v' else SkipList.get rest k

/-- step3/memtable.js: skip list plus tracked approximate byte size. -/
structure MemTable where
  entries : List (Str × JSV)
  currentSizeBytes : Nat
  maxSizeBytes : Nat
deriving DecidableEq

def MemTable.empty (maxSizeBytes : Nat) : MemTable :=
  { entries := [], currentSizeBytes := 0, maxSizeBytes := maxSizeBytes }

/-- Number of decimal digits, fuelled so that it reduces by `rfl`/`decide`
(`n` itself bounds the iteration count). -/
def digits10Go : Nat → Nat → Nat
  | 0, _ => 1
  | fuel + 1, n => if n < 10 then 1 else digits10Go fuel (n / 10) + 1

/-- Number of decimal digits (length of `JSON.stringify` for a natural). -/
def digits10 (n : Nat) : Nat := digits10Go n n

/-- Length of `JSON.stringify(v)` for a JSON value (escape sequences are not
modelled; every key and value in this development is plain ASCII). -/
def jsonStrLen : Json → Nat
  | .str s => s.length + 2
  | .num n => (if n < 0 then 1 else 0) + digits10 n.natAbs

/-- `MemTable._estimateSize` (step3/memtable.js). The `symFor`/`undef` cases
would throw in JS (`JSON.stringify(...).length` of `undefined`); they are
unreachable from the engine, which only stores JSON values and `symMem`. -/
def MemTable.estimateSize (k : Str) (v : JSV) : Nat :=
  k.length * 2 +
    (match v with
     | .symMem => 8
     | .json (.str s) => s.length * 2
     | .json j => jsonStrLen j * 2
     | _ => 0) + 64

def MemTable.shouldFlush (m : MemTable) : Bool :=
  m.maxSizeBytes ≤ m.currentSizeBytes

/-- `MemTable.set`: returns the updated memtable and the should-flush flag. -/
def MemTable.set (m : MemTable) (k : Str) (v : JSV) : MemTable × Bool :=
  let entrySize := MemTable.estimateSize k v
  let existing := SkipList.get m.entries k
  let sz1 := if existing ≠ JSV.undef then
      m.currentSizeBytes - MemTable.estimateSize k existing
    else m.currentSizeBytes
  let m' : MemTable :=
    { entries := SkipList.insert m.entries k v,
      currentSizeBytes := sz1 + entrySize,
      maxSizeBytes := m.maxSizeBytes }
  (m', m'.shouldFlush)

/-- `MemTable.delete`: a delete is a `set` of the module's unique tombstone
symbol `MemTable.TOMBSTONE = Symbol('TOMBSTONE')`. -/
def MemTable.delete (m : MemTable) (k : Str) : MemTable × Bool :=
  MemTable.set m k JSV.symMem

def MemTable.get (m : MemTable) (k : Str) : JSV :=
  SkipList.get m.entries k

/-- `MemTable.range` = `SkipList.range`: skip past keys `< startKey`, then
collect while `key <= endKey`. -/
def MemTable.range (m : MemTable) (startKey endKey : Str) : List (Str × JSV) :=
  (m.entries.dropWhile (fun e => strLt e.1 startKey)).takeWhile
    (fun e => strLe e.1 endKey)

/-! ## step2: Write-Ahead Log

A WAL file is its sequence of (non-blank) lines; each line either parses as a
JSON record (`good`) or throws in `JSON.parse` (`corrupt`).  The informational
`ts` field is not modelled. -/

inductive WalRecord where
  | set (key : Str) (value : Json)
  | del (key : Str)
  | other
deriving DecidableEq

inductive WalLine where
  | good (r : WalRecord)
  | corrupt
deriving DecidableEq

/-- One iteration of the `WriteAheadLog.recover` replay loop: a SET stores
the value in the `Map`, a DELETE removes the key, any other parse result is a
no-op, and a corrupt line is skipped with a diagnostic (the `catch` arm). -/
def WriteAheadLog.replayLine (store : List (Str × Json)) : WalLine → List (Str × Json)
  | .good (.set k v) => JsMap.set store k v
  | .good (.del k) => JsMap.del store k
  | .good .other => store
  | .corrupt => store

/-- `WriteAheadLog.recover` (step2/wal.js): replay every line into a JS `Map`;
the loop continues past corrupt lines. -/
def WriteAheadLog.recover (lines : List WalLine) : List (Str × Json) :=
  lines.foldl WriteAheadLog.replayLine []

/-! ## step4: SSTable writer and reader

A `Table` models the on-disk file: the data blocks (each the `JSON.parse` of
its serialized bytes), the index, and the footer.  `_loadBlock(index[i])`
reads `index[i].size` bytes at `index[i].offset`, which recovers exactly the
serialized `i`-th block; it is modelled as positional access into `blocks`. -/

structure IndexEntry where
  startKey : Str
  endKey : Str
  offset : Nat
  size : Nat
deriving DecidableEq

structure Footer where
  indexOffset : Nat
  indexSize : Nat
  blockCount : Nat
  entryCount : Nat
  minKey : Str
  maxKey : Str
  magic : Str
deriving DecidableEq

/-- A serialized entry `{key, value}`.  `none` means the `value` property was
dropped by `JSON.stringify` (its value was a symbol or `undefined`); reading
`.value` of such an entry yields `undefined`. -/
abbrev SerEntry := Str × Option Json

structure Table where
  blocks : List (List SerEntry)
  index : List IndexEntry
  footer : Footer
deriving DecidableEq

/-- The writer's tombstone conversion:
`entry.value === Symbol.for('TOMBSTONE') ? '__TOMBSTONE__' : entry.value`.
Note this tests the interned symbol, not `MemTable.TOMBSTONE`. -/
def SSTableWriter.encodeValue (v : JSV) : JSV :=
  if v = JSV.symFor then JSV.json (.str tombstoneStr) else v

/-- The value slot `JSON.stringify` actually emits for an entry. -/
def serProp : JSV → Option Json
  | .json j => some j
  | _ => none

/-- `_estimateEntrySize`: `JSON.stringify(entry).length`. -/
def entryJsonLen (e : SerEntry) : Nat :=
  match e.2 with
  | some j => 19 + e.1.length + jsonStrLen j
  | none => 10 + e.1.length

/-- `JSON.stringify` length of a whole block (array of entries). -/
def blockDataLen (b : List SerEntry) : Nat :=
  (b.map entryJsonLen).sum + b.length + 1

def blockStartKey (b : List SerEntry) : Str := (b.headD ([], none)).1

def blockEndKey (b : List SerEntry) : Str := (b.getLastD ([], none)).1

/-- `SSTableWriter._buildDataBlocks`: greedy grouping of entries into blocks
of about `blockSize` serialized bytes.  `cur`/`curSize` are the open block
buffer and its size (both start empty). -/
def SSTableWriter.buildDataBlocks (blockSize : Nat) :
    List SerEntry → List SerEntry → Nat → List (List SerEntry)
  | [], cur, _ => if cur.isEmpty then [] else [cur]
  | e :: rest, cur, curSize =>
    let esz := entryJsonLen e
    if blockSize < curSize + esz ∧ ¬ cur.isEmpty then
      cur :: SSTableWriter.buildDataBlocks blockSize rest [e] esz
    else SSTableWriter.buildDataBlocks blockSize rest (cur ++ [e]) (curSize + esz)

/-- Index construction with cumulative byte offsets. -/
def buildIndexAux : List (List SerEntry) → Nat → List IndexEntry
  | [], _ => []
  | b :: rest, off =>
    { startKey := blockStartKey b, endKey := blockEndKey b,
      offset := off, size := blockDataLen b } :: buildIndexAux rest (off + blockDataLen b)

/-- `JSON.stringify` length of one serialized index entry. -/
def indexEntryJsonLen (ie : IndexEntry) : Nat :=
  45 + ie.startKey.length + ie.endKey.length + digits10 ie.offset + digits10 ie.size

/-- The entry-collection loop at the top of `write`: each entry's value runs
through the tombstone conversion, and `serProp` records what
`JSON.stringify` will emit for it. -/
def writerEntries (entries : List (Str × JSV)) : List SerEntry :=
  entries.map (fun e => (e.1, serProp (SSTableWriter.encodeValue e.2)))

/-- `SSTableWriter.write` (step4/sstable-writer.js).  The error case is the
thrown `Error('Cannot write empty SSTable')`; nothing is written in that case
(the file descriptor is only opened after the check). -/
def SSTableWriter.write (blockSize : Nat) (entries : List (Str × JSV)) :
    Except Str Table :=
  let allEntries : List SerEntry := writerEntries entries
  if allEntries.isEmpty then .error (strOf "Cannot write empty SSTable")
  else
    let dataBlocks := SSTableWriter.buildDataBlocks blockSize allEntries [] 0
    let index := buildIndexAux dataBlocks 0
    let indexOffset := (dataBlocks.map blockDataLen).sum
    let indexSize := (index.map indexEntryJsonLen).sum + index.length + 1
    .ok
      { blocks := dataBlocks, index := index,
        footer :=
          { indexOffset := indexOffset, indexSize := indexSize,
            blockCount := dataBlocks.length, entryCount := allEntries.length,
            minKey := (allEntries.headD ([], none)).1,
            maxKey := (allEntries.getLastD ([], none)).1,
            magic := strOf "SSTABLE_V1" } }

/-- The reader's tombstone conversion:
`entry.value === '__TOMBSTONE__' ? TOMBSTONE : entry.value` (an absent value
property reads as `undefined`). -/
def SSTableReader.decodeValue (v : Option Json) : JSV :=
  if v = some (.str tombstoneStr) then JSV.symFor
  else match v with
    | some j => JSV.json j
    | none => JSV.undef

/-- `SSTableReader._findBlockIndex`: binary search over the index for a block
whose `[startKey, endKey]` contains the key, falling back to the last probed
block with `startKey <= key` (`result`), or `-1`.  The loop is fuelled so the
definition reduces; the interval `[left, right]` shrinks strictly each
iteration, so any `fuel > (right + 1 - left).toNat` never runs out (the
`fuel = 0` arm returns `result` exactly like loop exit).  The `none` arm of
the array access is likewise unreachable: every call keeps
`0 ≤ left ≤ mid ≤ right < index.length`. -/
def SSTableReader.findBlockAux (index : List IndexEntry) (key : Str) :
    Nat → Int → Int → Int → Int
  | 0, _, _, result => result
  | fuel + 1, left, right, result =>
    if left ≤ right then
      let mid := (left + right) / 2
      match index.get? mid.toNat with
      | none => result
      | some block =>
        if strLe block.startKey key && strLe key block.endKey then mid
        else if strLt key block.startKey then
          SSTableReader.findBlockAux index key fuel left (mid - 1) result
        else
          SSTableReader.findBlockAux index key fuel (mid + 1) right mid
    else result

def SSTableReader.findBlockIndex (t : Table) (key : Str) : Int :=
  SSTableReader.findBlockAux t.index key (t.index.length + 1) 0
    ((t.index.length : Int) - 1) (-1)

/-- `SSTableReader._binarySearchBlock` inner loop, fuelled like
`findBlockAux`. -/
def SSTableReader.binarySearchAux (entries : List SerEntry) (key : Str) :
    Nat → Int → Int → Option SerEntry
  | 0, _, _ => none
  | fuel + 1, left, right =>
    if left ≤ right then
      let mid := (left + right) / 2
      match entries.get? mid.toNat with
      | none => none
      | some e =>
        if e.1 = key then some e
        else if strLt e.1 key then
          SSTableReader.binarySearchAux entries key fuel (mid + 1) right
        else
          SSTableReader.binarySearchAux entries key fuel left (mid - 1)
    else none

def SSTableReader.binarySearchBlock (entries : List SerEntry) (key : Str) :
    Option SerEntry :=
  SSTableReader.binarySearchAux entries key (entries.length + 1) 0
    ((entries.length : Int) - 1)

/-- `SSTableReader.get`: `some .undef` is JS returning `undefined` (absent);
`none` models a thrown exception (never reached on writer-produced tables). -/
def SSTableReader.get (t : Table) (key : Str) : Option JSV :=
  if strLt key t.footer.minKey || strLt t.footer.maxKey key then some JSV.undef
  else
    let blockIndex := SSTableReader.findBlockIndex t key
    if blockIndex = -1 then some JSV.undef
    else
      match t.index.get? blockIndex.toNat, t.blocks.get? blockIndex.toNat with
      | some _, some entries =>
        match SSTableReader.binarySearchBlock entries key with
        | none => some JSV.undef
        | some e => some (SSTableReader.decodeValue e.2)
      | _, _ => none

/-- `SSTableReader.range` block scan: walk the remaining index entries (the
loop `while (blockIdx < this.index.length)`, with `j` the current block
position for `_loadBlock`); stop before a block with `startKey > endKey`,
otherwise collect the block's in-range entries. -/
def SSTableReader.rangeGo (t : Table) (startKey endKey : Str) :
    List IndexEntry → Nat → Option (List (Str × JSV))
  | [], _ => some []
  | blockInfo :: idxRest, j =>
    if strLt endKey blockInfo.startKey then some []
    else
      match t.blocks.get? j with
      | some entries => do
        let rest ← SSTableReader.rangeGo t startKey endKey idxRest (j + 1)
        some ((entries.filter
            (fun e => strLe startKey e.1 && strLe e.1 endKey)).map
            (fun e => (e.1, SSTableReader.decodeValue e.2)) ++ rest)
      | none => none

def SSTableReader.range (t : Table) (startKey endKey : Str) :
    Option (List (Str × JSV)) :=
  let bi := SSTableReader.findBlockIndex t startKey
  let start := if bi = -1 then 0 else bi.toNat
  SSTableReader.rangeGo t startKey endKey (t.index.drop start) start

/-- `SSTableReader[Symbol.iterator]`: walk the index in order, load each block,
yield its entries with the tombstone decoded. -/
def SSTableReader.iterGo (t : Table) : List IndexEntry → Nat → Option (List (Str × JSV))
  | [], _ => some []
  | _ :: idxRest, j =>
    match t.blocks.get? j with
    | some entries => do
      let rest ← SSTableReader.iterGo t idxRest (j + 1)
      some (entries.map (fun e => (e.1, SSTableReader.decodeValue e.2)) ++ rest)
    | none => none

def SSTableReader.iter (t : Table) : Option (List (Str × JSV)) :=
  SSTableReader.iterGo t t.index 0

/-! ## step5: the LSM engine

`LSMTree` is the engine state.  The on-disk table files are exactly the
`Table` values reachable from `levels` (the engine creates and unlinks them in
lockstep with the level lists), and the current `wal.log` content is `wal`.
`Option` results model thrown exceptions. -/

structure LSMTree where
  memtable : MemTable
  levels : List (List Table)
  sstableCounter : Nat
  memtableMaxSize : Nat
  level0MaxFiles : Nat
  maxLevels : Nat
  wal : List WalLine
deriving DecidableEq

/-- `new SSTableWriter(path)` uses the default block size. -/
def defaultBlockSize : Nat := 4096

/-- `LSMTree._compactLevel` (step5/lsm-tree.js lines 285-352). -/
def LSMTree.compactLevel (s : LSMTree) (level : Nat) : Option LSMTree :=
  if s.maxLevels - 1 ≤ level then some s
  else do
    let oldSstables := s.levels.getD level []
    let m1 ← oldSstables.foldlM
      (fun (acc : List (Str × JSV)) t => do
        let es ← SSTableReader.iter t
        pure (es.foldl (fun a e => JsMap.set a e.1 e.2) acc))
      ([] : List (Str × JSV))
    let nextLevelOldSstables := s.levels.getD (level + 1) []
    let m2 ← nextLevelOldSstables.foldlM
      (fun (acc : List (Str × JSV)) t => do
        let es ← SSTableReader.iter t
        pure (es.foldl
          (fun a e => if JsMap.hasKey a e.1 then a else JsMap.set a e.1 e.2) acc))
      m1
    let entries := m2.filter
      (fun e => decide ¬(level + 1 = s.maxLevels - 1 ∧ e.2 = JSV.symFor))
    let entries := jsSortBy (fun a b => localeCompare a.1 b.1) entries
    let counter' := s.sstableCounter + 1
    let newNext ←
      if 0 < entries.length then
        match SSTableWriter.write defaultBlockSize entries with
        | .error _ => none
        | .ok t => some [t]
      else some ([] : List Table)
    let levels' := (s.levels.set (level + 1) newNext).set level []
    some { s with levels := levels', sstableCounter := counter' }

/-- `LSMTree._flushMemtable`: write the memtable through the writer as
`level0_<seq>.sst`, install the reader at the end of Level 0, reset the
memtable, truncate the WAL, and compact Level 0 at the threshold. -/
def LSMTree.flushMemtable (s : LSMTree) : Option LSMTree := do
  let t ← match SSTableWriter.write defaultBlockSize s.memtable.entries with
          | .error _ => none
          | .ok t => some t
  let levels' := s.levels.set 0 ((s.levels.getD 0 []) ++ [t])
  let s' := { s with
    levels := levels',
    sstableCounter := s.sstableCounter + 1,
    memtable := MemTable.empty s.memtableMaxSize,
    wal := [] }
  if s.level0MaxFiles ≤ (levels'.getD 0 []).length then
    LSMTree.compactLevel s' 0
  else some s'

/-- `LSMTree.set` (keys are strings by the type of `Str`; the JS
`typeof key !== 'string'` guard cannot fire). -/
def LSMTree.set (s : LSMTree) (key : Str) (value : Json) : Option LSMTree :=
  let s1 := { s with wal := s.wal ++ [WalLine.good (.set key value)] }
  let r := MemTable.set s1.memtable key (.json value)
  let s2 := { s1 with memtable := r.1 }
  if r.2 then LSMTree.flushMemtable s2 else some s2

def LSMTree.delete (s : LSMTree) (key : Str) : Option LSMTree :=
  let s1 := { s with wal := s.wal ++ [WalLine.good (.del key)] }
  let r := MemTable.delete s1.memtable key
  let s2 := { s1 with memtable := r.1 }
  if r.2 then LSMTree.flushMemtable s2 else some s2

/-- Level-0 probe loop: `ts` in iteration order (the JS loop runs from the
last array element to the first, so callers pass the reversed list).
`some none` = no table answered, keep looking. -/
def LSMTree.getLevel0 : List Table → Str → Option (Option JSV)
  | [], _ => some none
  | t :: rest, key =>
    match SSTableReader.get t key with
    | none => none
    | some v =>
      if v ≠ JSV.undef then
        some (some (if v = JSV.symFor then JSV.undef else v))
      else LSMTree.getLevel0 rest key

/-- Deep-level probe: skip a table unless `stats().minKey ≤ key ≤ maxKey`. -/
def LSMTree.getDeepTables : List Table → Str → Option (Option JSV)
  | [], _ => some none
  | t :: rest, key =>
    if strLe t.footer.minKey key && strLe key t.footer.maxKey then
      match SSTableReader.get t key with
      | none => none
      | some v =>
        if v ≠ JSV.undef then
          some (some (if v = JSV.symFor then JSV.undef else v))
        else LSMTree.getDeepTables rest key
    else LSMTree.getDeepTables rest key

def LSMTree.getDeepLevels : List (List Table) → Str → Option (Option JSV)
  | [], _ => some none
  | l :: rest, key =>
    match LSMTree.getDeepTables l key with
    | none => none
    | some (some v) => some (some v)
    | some none => LSMTree.getDeepLevels rest key

/-- `LSMTree.get`: MemTable, then Level 0 newest-array-position first, then
the deeper levels; tombstones answer "absent" (`undefined`). -/
def LSMTree.get (s : LSMTree) (key : Str) : Option JSV :=
  let memValue := MemTable.get s.memtable key
  if memValue ≠ JSV.undef then
    some (if memValue = JSV.symMem then JSV.undef else memValue)
  else
    match LSMTree.getLevel0 ((s.levels.getD 0 []).reverse) key with
    | none => none
    | some (some v) => some v
    | some none =>
      match LSMTree.getDeepLevels (s.levels.drop 1) key with
      | none => none
      | some (some v) => some v
      | some none => some JSV.undef

/-- One level's contribution to the range merge. -/
def LSMTree.collectTables (ts : List Table) (startKey endKey : Str)
    (acc : List (Str × JSV)) : Option (List (Str × JSV)) :=
  ts.foldlM
    (fun a t => do
      let es ← SSTableReader.range t startKey endKey
      pure (es.foldl (fun m e => JsMap.set m e.1 e.2) a))
    acc

/-- `LSMTree.range`: merge all levels deepest-first into a `Map` (newer
bindings overwrite), overlay the MemTable, drop both tombstones, sort by
`localeCompare`. -/
def LSMTree.range (s : LSMTree) (startKey endKey : Str) :
    Option (List (Str × JSV)) := do
  let merged ← s.levels.reverse.foldlM
    (fun a lvl => LSMTree.collectTables lvl startKey endKey a)
    ([] : List (Str × JSV))
  let merged := (MemTable.range s.memtable startKey endKey).foldl
    (fun m e => JsMap.set m e.1 e.2) merged
  let output := merged.filter
    (fun e => decide (e.2 ≠ JSV.symFor ∧ e.2 ≠ JSV.symMem))
  some (jsSortBy (fun a b => localeCompare a.1 b.1) output)

/-- `LSMTree._recover` file scan.  The input is the directory enumeration in
`fs.readdirSync` order; each `.sst` file contributes its regex match
(`none` if `level(\d+)_(\d+)\.sst` does not match) and its content.  Pushing
onto `this.levels[level]` throws when `level ≥ maxLevels` (the array slot is
`undefined`), hence the `none` arm. -/
def LSMTree.recoverFilesAux :
    List (Option (Nat × Nat) × Table) → List (List Table) → Nat →
      Option (List (List Table) × Nat)
  | [], levels, counter => some (levels, counter)
  | (none, _) :: rest, levels, counter =>
    LSMTree.recoverFilesAux rest levels counter
  | (some (level, seq), t) :: rest, levels, counter =>
    match levels.get? level with
    | none => none
    | some lvl =>
      LSMTree.recoverFilesAux rest (levels.set level (lvl ++ [t]))
        (if counter ≤ seq then seq + 1 else counter)

/-- WAL replay into the fresh memtable (`_recover`, lines 385-393): values in
the recovered Map come from `JSON.parse`, so the `typeof value === 'symbol'`
test is checked on a JSON value. -/
def LSMTree.replayWal (walData : List (Str × Json)) (m : MemTable) : MemTable :=
  walData.foldl
    (fun mt e =>
      if (JSV.json e.2).isSymbol then (MemTable.delete mt e.1).1
      else (MemTable.set mt e.1 (.json e.2)).1)
    m

/-- `new LSMTree(dataDir, options)` on an existing directory: initialize
state, then `_recover()` (scan `.sst` files, then replay the WAL). -/
def LSMTree.openEngine (memtableMaxSize level0MaxFiles maxLevels : Nat)
    (files : List (Option (Nat × Nat) × Table)) (wal : List WalLine) :
    Option LSMTree := do
  let init := List.replicate maxLevels ([] : List Table)
  let (levels, counter) ← LSMTree.recoverFilesAux files init 0
  let walData := WriteAheadLog.recover wal
  let mt := LSMTree.replayWal walData (MemTable.empty memtableMaxSize)
  some
    { memtable := mt, levels := levels, sstableCounter := counter,
      memtableMaxSize := memtableMaxSize, level0MaxFiles := level0MaxFiles,
      maxLevels := maxLevels, wal := wal }

/-! ## Auxiliary notions used by the claims -/

/-- Boolean "consecutive elements related" (strict ascending chains etc.). -/
def chainB (f : α → α → Bool) : List α → Bool
  | [] => true
  | [_] => true
  | a :: b :: rest => f a b && chainB f (b :: rest)

/-- A line `JSON.parse` accepts. -/
def WalLine.isParseable : WalLine → Bool
  | .good _ => true
  | .corrupt => false

/-! ## Concrete scenario states (used by the claims below) -/

/-- The key `"k"`. -/
def kStr : Str := strOf "k"

/-- A placeholder table (never actually read in the scenarios below). -/
def emptyTable : Table := ⟨[], [], ⟨0, 0, 0, 0, [], [], []⟩⟩

/-- C1 scenario, spec §8 scenario 6 with `levels_max = 2`:
`set k=1`, flush, `delete k`, flush (all other options at their defaults). -/
def c1AfterSecondFlush : Option LSMTree := do
  let s0 ← LSMTree.openEngine (4 * 1024 * 1024) 4 2 [] []
  let s1 ← LSMTree.set s0 kStr (.num 1)
  let s2 ← LSMTree.flushMemtable s1
  let s3 ← LSMTree.delete s2 kStr
  LSMTree.flushMemtable s3

/-- C1 scenario continued: compaction of Level 0 into the deepest level. -/
def c1AfterCompaction : Option LSMTree := do
  let s4 ← c1AfterSecondFlush
  LSMTree.compactLevel s4 0

/-- A table file holding `k = 7` (for the C2 recovery scenario). -/
def c2DiskTable : Table :=
  (SSTableWriter.write 4096 [(kStr, .json (.num 7))]).toOption.getD emptyTable

/-- C2 scenario: open a directory with one Level-0 table holding `k = 7` and a
WAL whose records are `SET k 5` then `DELETE k`. -/
def c2Recovered : Option LSMTree :=
  LSMTree.openEngine (4 * 1024 * 1024) 4 7 [(some (0, 0), c2DiskTable)]
    [WalLine.good (.set kStr (.num 5)), WalLine.good (.del kStr)]

/-- Level-0 table with `k = 11`, written first (file sequence number 1). -/
def c4OlderTable : Table :=
  (SSTableWriter.write 4096 [(kStr, .json (.num 11))]).toOption.getD emptyTable

/-- Level-0 table with `k = 22`, written second (file sequence number 2). -/
def c4NewerTable : Table :=
  (SSTableWriter.write 4096 [(kStr, .json (.num 22))]).toOption.getD emptyTable

/-- C4 scenario: open a directory whose enumeration lists `level0_2.sst`
before `level0_1.sst` (`fs.readdirSync` gives no ordering guarantee; with ten
or more files even a lexicographically sorted listing puts `level0_10` before
`level0_9`). -/
def c4Recovered : Option LSMTree :=
  LSMTree.openEngine (4 * 1024 * 1024) 4 7
    [(some (0, 2), c4NewerTable), (some (0, 1), c4OlderTable)] []

/-! ## C1 -/

/-- Values the writer/reader pair round-trips: the interned tombstone, or a
JSON value other than the literal string `'__TOMBSTONE__'` (which the spec
reserves as the tombstone's encoding). -/
def roundtrippable : JSV → Bool
  | .symFor => true
  | .json j => decide (j ≠ Json.str tombstoneStr)
  | _ => false

/-! ## C7 -/

/-- The C7 witness stream: a real value under key "a", a tombstone under
key "b", a string value under key "c". -/
def c7Entries : List (Str × JSV) :=
  [(strOf "a", .json (.num 5)), (strOf "b", JSV.symFor),
   (strOf "c", .json (.str (strOf "x")))]

def c7Table : Table :=
  (SSTableWriter.write 4096 c7Entries).toOption.getD emptyTable

/-- The C10 witness table: block size 1 forces one entry per block, so keys
"a" and "c" land in different blocks and "b" falls strictly between them. -/
def c10Entries : List (Str × JSV) :=
  [(strOf "a", .json (.num 1)), (strOf "c", .json (.num 2))]

def c10Table : Table :=
  (SSTableWriter.write 1 c10Entries).toOption.getD emptyTable

/-- Directory enumeration for the C8 witness: `level0_5.sst`, one unmatched
file, `level3_2.sst`. -/
def c8Files : List (Option (Nat × Nat) × Table) :=
  [(some (0, 5), emptyTable), (none, emptyTable), (some (3, 2), emptyTable)]

/-- The engine state `open` produces on `c8Files` with an empty WAL. -/
def c8State : LSMTree :=
  { memtable := MemTable.empty 0,
    levels := [[emptyTable], [], [], [emptyTable], [], [], []],
    sstableCounter := 6, memtableMaxSize := 0, level0MaxFiles := 4,
    maxLevels := 7, wal := [] }

/-- A concrete engine with the default configuration (`maxLevels = 7`). -/
def c9State : LSMTree :=
  { memtable := MemTable.empty 4096, levels := List.replicate 7 [],
    sstableCounter := 0, memtableMaxSize := 4096, level0MaxFiles := 4,
    maxLevels := 7, wal := [] }

/-! ## Well-formed tables and engine states (C3)

`wfTable` is the §3 sorted-table invariant: non-empty blocks of strictly
ascending present-valued entries, index entries carrying each block's true
first/last key, and `block[i].endKey < block[i+1].startKey`.  (A value can be
absent only through the C1 tombstone bug, which breaks the very property C3
describes, so well-formedness requires present values.)  `wfLSM` additionally
requires the level array to have `maxLevels` slots and the memtable to be
strictly sorted with defined values. -/

def wfBlock (b : List SerEntry) : Bool :=
  !b.isEmpty && chainB (fun x y => strLt x y) (b.map Prod.fst) &&
    b.all (fun e => e.2.isSome)

def wfIndexBlocks : List IndexEntry → List (List SerEntry) → Bool
  | [], [] => true
  | ie :: idxR, b :: bsR =>
    wfBlock b && decide (ie.startKey = blockStartKey b) &&
      decide (ie.endKey = blockEndKey b) && wfIndexBlocks idxR bsR
  | _, _ => false

def wfTable (t : Table) : Bool :=
  wfIndexBlocks t.index t.blocks &&
    chainB (fun i j => strLt i.endKey j.startKey) t.index

def wfLSM (s : LSMTree) : Bool :=
  decide (s.levels.length = s.maxLevels) &&
    s.levels.all (fun lvl => lvl.all wfTable) &&
    chainB (fun a b => strLt a b) (s.memtable.entries.map Prod.fst) &&
    s.memtable.entries.all (fun e => decide (e.2 ≠ JSV.undef))

/-- All entries of a table, in file order, with the tombstone decoded — what
the reader's full iteration yields. -/
def tableEntriesDecoded (t : Table) : List (Str × JSV) :=
  t.blocks.flatten.map (fun e => (e.1, SSTableReader.decodeValue e.2))

/-- Every binding of the engine state in recency order, oldest source first:
deepest level up to Level 0 (each level's tables in list order, so within
Level 0 the later = newer table comes later), then the MemTable.  The last
binding for a key is therefore its newest one. -/
def allBindings (s : LSMTree) : List (Str × JSV) :=
  (s.levels.reverse.map (fun lvl => (lvl.map tableEntriesDecoded).flatten)).flatten
    ++ s.memtable.entries

/-- The newest binding a key has anywhere in the state (its recency-correct
value), `none` when the key is bound nowhere. -/
def liveValue (s : LSMTree) (k : Str) : Option JSV :=
  lastVal (allBindings s) k

/-- A value that makes its key live: neither of the two tombstones. -/
def isLiveVal (v : JSV) : Bool := decide (v ≠ JSV.symFor ∧ v ≠ JSV.symMem)

/-- `lo ≤ k ≤ hi` in code-unit order. -/
def inRangeKey (lo hi k : Str) : Bool := strLe lo k && strLe k hi

/-- The explicit value of a well-formed table's `range`. -/
def rangeList (t : Table) (lo hi : Str) : List (Str × JSV) :=
  (t.blocks.flatten.filter (fun e => strLe lo e.1 && strLe e.1 hi)).map
    (fun e => (e.1, SSTableReader.decodeValue e.2))

/-- C3 counterexample state: a fresh engine whose MemTable holds the keys
`"B" = 1` and `"a" = 2` (in the skip list's code-unit order, `'B' = 66`
before `'a' = 97`). -/
def c3State : LSMTree :=
  { memtable := { entries := [(strOf "B", .json (.num 1)),
                              (strOf "a", .json (.num 2))],
                  currentSizeBytes := 0, maxSizeBytes := 4 * 1024 * 1024 },
    levels := [[]], sstableCounter := 0, memtableMaxSize := 4 * 1024 * 1024,
    level0MaxFiles := 4, maxLevels := 1, wal := [] }

/-! ## Theorems -/

theorem strLt_irrefl (a : Str) : strLt a a = false := by
  induction a with
  | nil => rfl
  | cons x xs ih => simp [strLt, ih]

theorem strLt_asymm {a b : Str} (h : strLt a b = true) : strLt b a = false := by
  induction a generalizing b with
  | nil =>
    cases b with
    | nil => simp [strLt] at h
    | cons y ys => simp [strLt]
  | cons x xs ih =>
    cases b with
    | nil => simp [strLt] at h
    | cons y ys =>
      simp only [strLt, Bool.or_eq_true, Bool.and_eq_true, beq_iff_eq,
        decide_eq_true_eq] at h
      simp only [strLt, Bool.or_eq_false_iff, Bool.and_eq_false_iff,
        beq_eq_false_iff_ne, ne_eq, decide_eq_false_iff_not]
      rcases h with h | ⟨rfl, h⟩
      · exact ⟨by omega, Or.inl (by omega)⟩
      · exact ⟨by omega, Or.inr (ih h)⟩

theorem strLt_trans {a b c : Str} (h1 : strLt a b = true) (h2 : strLt b c = true) :
    strLt a c = true := by
  induction a generalizing b c with
  | nil =>
    cases c with
    | nil => cases b <;> simp_all [strLt]
    | cons z zs => simp [strLt]
  | cons x xs ih =>
    cases b with
    | nil => simp [strLt] at h1
    | cons y ys =>
      cases c with
      | nil => simp [strLt] at h2
      | cons z zs =>
        simp only [strLt, Bool.or_eq_true, Bool.and_eq_true, beq_iff_eq,
          decide_eq_true_eq] at h1 h2 ⊢
        rcases h1 with h1 | ⟨rfl, h1⟩
        · rcases h2 with h2 | ⟨rfl, h2⟩
          · exact Or.inl (by omega)
          · exact Or.inl h1
        · rcases h2 with h2 | ⟨rfl, h2⟩
          · exact Or.inl h2
          · exact Or.inr ⟨rfl, ih h1 h2⟩

theorem strLt_connex {a b : Str} (h1 : strLt a b = false) (h2 : strLt b a = false) :
    a = b := by
  induction a generalizing b with
  | nil => cases b <;> simp_all [strLt]
  | cons x xs ih =>
    cases b with
    | nil => simp [strLt] at h2
    | cons y ys =>
      simp only [strLt, Bool.or_eq_false_iff, Bool.and_eq_false_iff,
        beq_eq_false_iff_ne, ne_eq, decide_eq_false_iff_not] at h1 h2
      obtain ⟨hx1, hx2⟩ := h1
      obtain ⟨hy1, hy2⟩ := h2
      have hxy : x = y := by omega
      subst hxy
      rcases hx2 with h | h
      · exact absurd rfl h
      · rcases hy2 with h' | h'
        · exact absurd rfl h'
        · rw [ih h h']

theorem strLe_refl (a : Str) : strLe a a = true := by
  simp [strLe, strLt_irrefl]

theorem strLe_of_lt {a b : Str} (h : strLt a b = true) : strLe a b = true := by
  simp [strLe, strLt_asymm h]

theorem strLt_of_le_ne {a b : Str} (h : strLe a b = true) (hne : a ≠ b) :
    strLt a b = true := by
  simp only [strLe, Bool.not_eq_true'] at h
  by_contra h'
  exact hne (strLt_connex (by simpa using h') h)

theorem strLt_of_lt_of_le {a b c : Str} (h1 : strLt a b = true) (h2 : strLe b c = true) :
    strLt a c = true := by
  simp only [strLe, Bool.not_eq_true'] at h2
  rcases Bool.eq_false_or_eq_true (strLt b c) with hbc | hbc
  · exact strLt_trans h1 hbc
  · have := strLt_connex hbc h2; subst this; exact h1

theorem strLt_of_le_of_lt {a b c : Str} (h1 : strLe a b = true) (h2 : strLt b c = true) :
    strLt a c = true := by
  simp only [strLe, Bool.not_eq_true'] at h1
  rcases Bool.eq_false_or_eq_true (strLt a b) with hab | hab
  · exact strLt_trans hab h2
  · have := strLt_connex hab h1; subst this; exact h2

theorem strLe_trans {a b c : Str} (h1 : strLe a b = true) (h2 : strLe b c = true) :
    strLe a c = true := by
  simp only [strLe, Bool.not_eq_true'] at h2 ⊢
  by_contra h
  have hca : strLt c a = true := by simpa using h
  have : strLt c b = true := strLt_of_lt_of_le hca h1
  rw [this] at h2; exact absurd h2 (by simp)

theorem lexCmpN_eq_iff {a b : List Nat} : lexCmpN a b = .eq ↔ a = b := by
  induction a generalizing b with
  | nil => cases b <;> simp [lexCmpN]
  | cons x xs ih =>
    cases b with
    | nil => simp [lexCmpN]
    | cons y ys =>
      by_cases h1 : x < y
      · simp [lexCmpN, h1]; omega
      · by_cases h2 : y < x
        · simp [lexCmpN, h1, h2]; omega
        · have hxy : x = y := by omega
          subst hxy
          simp [lexCmpN, ih]

theorem lexCmpN_swap {a b : List Nat} : lexCmpN b a = (lexCmpN a b).swap := by
  induction a generalizing b with
  | nil => cases b <;> simp [lexCmpN, Ordering.swap]
  | cons x xs ih =>
    cases b with
    | nil => simp [lexCmpN, Ordering.swap]
    | cons y ys =>
      by_cases h1 : x < y
      · simp [lexCmpN, h1, show ¬ y < x by omega, Ordering.swap]
      · by_cases h2 : y < x
        · simp [lexCmpN, h1, h2, Ordering.swap]
        · simp [lexCmpN, h1, h2, ih]

theorem localeCompare_eq_iff {a b : Str} : localeCompare a b = .eq ↔ a = b := by
  constructor
  · intro h
    simp only [localeCompare] at h
    by_cases hf : lexCmpN (a.map caseFold) (b.map caseFold) = .eq
    swap
    · rw [if_neg hf] at h; exact absurd h hf
    rw [if_pos hf] at h
    have hfold := lexCmpN_eq_iff.mp hf
    have hvar := lexCmpN_eq_iff.mp h
    clear hf h
    induction a generalizing b with
    | nil => cases b <;> simp_all
    | cons x xs ih =>
      cases b with
      | nil => simp at hfold
      | cons y ys =>
        simp only [List.map_cons, List.cons.injEq] at hfold hvar
        have hx : x = y := by
          have h1 := hfold.1
          have h2 := hvar.1
          simp only [caseFold, caseVar] at h1 h2
          split_ifs at h1 h2 <;> omega
        exact by rw [hx, ih hfold.2 hvar.2]
  · rintro rfl
    simp [localeCompare, lexCmpN_eq_iff.mpr rfl]

theorem localeCompare_swap {a b : Str} : localeCompare b a = (localeCompare a b).swap := by
  simp only [localeCompare]
  rw [lexCmpN_swap (a := a.map caseFold) (b := b.map caseFold),
    lexCmpN_swap (a := a.map caseVar) (b := b.map caseVar)]
  rcases lexCmpN (a.map caseFold) (b.map caseFold) <;>
    rcases lexCmpN (a.map caseVar) (b.map caseVar) <;> simp [Ordering.swap]

/-! ### `Array.prototype.sort` with a comparator

Modelled as a stable insertion sort; all call sites sort entry lists whose
keys are pairwise distinct, for which every comparison sort agrees. -/

theorem perm_insertCmp (cmp : α → α → Ordering) (x : α) (l : List α) :
    List.Perm (insertCmp cmp x l) (x :: l) := by
  induction l with
  | nil => rfl
  | cons y ys ih =>
    by_cases h : cmp x y = .gt
    · simp only [insertCmp, if_pos h]
      exact (ih.cons y).trans (List.Perm.swap x y ys)
    · simp [insertCmp, if_neg h]

theorem perm_jsSortBy (cmp : α → α → Ordering) (l : List α) :
    List.Perm (jsSortBy cmp l) l := by
  induction l with
  | nil => rfl
  | cons y ys ih =>
    exact (perm_insertCmp cmp y (jsSortBy cmp ys)).trans (ih.cons y)

theorem chain'_insertCmp (cmp : α → α → Ordering)
    (hsw : ∀ a b, cmp a b = .gt → cmp b a ≠ .gt) (x : α) (l : List α)
    (h : List.Chain' (fun a b => cmp a b ≠ .gt) l) :
    List.Chain' (fun a b => cmp a b ≠ .gt) (insertCmp cmp x l) := by
  induction l with
  | nil => simp [insertCmp]
  | cons y ys ih =>
    by_cases hg : cmp x y = .gt
    · simp only [insertCmp, if_pos hg]
      have htail := ih (h.tail)
      refine List.chain'_cons'.mpr ⟨?_, htail⟩
      intro z hz
      cases ys with
      | nil =>
        simp only [insertCmp, List.head?_cons, Option.mem_def, Option.some.injEq] at hz
        subst hz; exact hsw _ _ hg
      | cons w ws =>
        by_cases hg2 : cmp x w = .gt
        · simp only [insertCmp, if_pos hg2, List.head?_cons, Option.mem_def,
            Option.some.injEq] at hz
          subst hz
          exact (List.chain'_cons.mp h).1
        · simp only [insertCmp, if_neg hg2, List.head?_cons, Option.mem_def,
            Option.some.injEq] at hz
          subst hz; exact hsw _ _ hg
    · simp only [insertCmp, if_neg hg]
      exact List.chain'_cons'.mpr ⟨fun z hz => by
        simp only [List.head?_cons, Option.mem_def, Option.some.injEq] at hz
        subst hz; exact hg, h⟩

theorem chain'_jsSortBy (cmp : α → α → Ordering)
    (hsw : ∀ a b, cmp a b = .gt → cmp b a ≠ .gt) (l : List α) :
    List.Chain' (fun a b => cmp a b ≠ .gt) (jsSortBy cmp l) := by
  induction l with
  | nil => simp [jsSortBy]
  | cons y ys ih => exact chain'_insertCmp cmp hsw y _ ih

/-! ### JS `Map`: an insertion-ordered association list -/

theorem JsMap.get_set_self (m : List (Str × α)) (k : Str) (v : α) :
    JsMap.get (JsMap.set m k v) k = some v := by
  induction m with
  | nil => simp [JsMap.set, JsMap.get]
  | cons e rest ih =>
    obtain ⟨k', v'⟩ := e
    by_cases h : k' = k <;> simp [JsMap.set, JsMap.get, h, ih]

theorem JsMap.get_set_ne (m : List (Str × α)) (k k' : Str) (v : α) (h : k ≠ k') :
    JsMap.get (JsMap.set m k v) k' = JsMap.get m k' := by
  induction m with
  | nil => simp [JsMap.set, JsMap.get, h]
  | cons e rest ih =>
    obtain ⟨k0, v0⟩ := e
    by_cases h0 : k0 = k
    · subst h0
      simp [JsMap.set, JsMap.get, h]
    · simp only [JsMap.set, if_neg h0, JsMap.get]
      rw [ih]

theorem JsMap.mem_keys_set (m : List (Str × α)) (k k' : Str) (v : α) :
    k' ∈ (JsMap.set m k v).map Prod.fst ↔ k' ∈ m.map Prod.fst ∨ k' = k := by
  induction m with
  | nil => simp [JsMap.set]
  | cons e rest ih =>
    obtain ⟨k0, v0⟩ := e
    by_cases h0 : k0 = k
    · subst h0; simp [JsMap.set]; tauto
    · simp [JsMap.set, h0, ih]; tauto

theorem JsMap.get_eq_none_iff (m : List (Str × α)) (k : Str) :
    JsMap.get m k = none ↔ k ∉ m.map Prod.fst := by
  induction m with
  | nil => simp [JsMap.get]
  | cons e rest ih =>
    obtain ⟨k0, v0⟩ := e
    by_cases h0 : k0 = k
    · subst h0; simp [JsMap.get]
    · simp [JsMap.get, h0, ih, Ne.symm h0]

theorem JsMap.nodup_keys_set (m : List (Str × α)) (k : Str) (v : α)
    (h : (m.map Prod.fst).Nodup) : ((JsMap.set m k v).map Prod.fst).Nodup := by
  induction m with
  | nil => simp [JsMap.set]
  | cons e rest ih =>
    obtain ⟨k0, v0⟩ := e
    simp only [List.map_cons, List.nodup_cons] at h
    by_cases h0 : k0 = k
    · subst h0; simpa [JsMap.set] using h
    · simp only [JsMap.set, if_neg h0, List.map_cons, List.nodup_cons]
      refine ⟨fun hmem => ?_, ih h.2⟩
      rcases (JsMap.mem_keys_set rest k k0 v).mp hmem with h' | h'
      · exact h.1 h'
      · exact h0 h'

theorem lastVal_aux (L : List (Str × α)) (k : Str) (a : Option α) :
    L.foldl (fun acc e => if e.1 = k then some e.2 else acc) a =
      orElseO (lastVal L k) a := by
  induction L generalizing a with
  | nil => simp [lastVal, orElseO]
  | cons e rest ih =>
    simp only [lastVal, List.foldl_cons]
    by_cases h : e.1 = k
    · simp only [if_pos h]
      rw [ih (some e.2)]
      rcases lastVal rest k with _ | v <;> simp [orElseO]
    · simp only [if_neg h]
      rw [ih a, ih none]
      rcases lastVal rest k with _ | v <;> simp [orElseO]

theorem lastVal_cons (e : Str × α) (L : List (Str × α)) (k : Str) :
    lastVal (e :: L) k = orElseO (lastVal L k) (if e.1 = k then some e.2 else none) := by
  simp only [lastVal, List.foldl_cons]
  by_cases h : e.1 = k
  · simp only [if_pos h]
    exact lastVal_aux L k (some e.2)
  · simp only [if_neg h]
    exact lastVal_aux L k none

theorem JsMap.get_foldl_set (L : List (Str × α)) (m0 : List (Str × α)) (k : Str) :
    JsMap.get (L.foldl (fun m e => JsMap.set m e.1 e.2) m0) k =
      orElseO (lastVal L k) (JsMap.get m0 k) := by
  induction L generalizing m0 with
  | nil => simp [lastVal, orElseO]
  | cons e rest ih =>
    simp only [List.foldl_cons]
    rw [ih, lastVal_cons]
    by_cases h : e.1 = k
    · subst h
      rw [JsMap.get_set_self]
      rcases lastVal rest e.1 with _ | v <;> simp [orElseO]
    · rw [JsMap.get_set_ne m0 e.1 k e.2 h]
      simp only [if_neg h]
      rcases lastVal rest k with _ | v <;> simp [orElseO]

theorem JsMap.nodup_keys_foldl_set (L : List (Str × α)) (m0 : List (Str × α))
    (h : (m0.map Prod.fst).Nodup) :
    (((L.foldl (fun m e => JsMap.set m e.1 e.2) m0)).map Prod.fst).Nodup := by
  induction L generalizing m0 with
  | nil => exact h
  | cons e rest ih => exact ih _ (JsMap.nodup_keys_set _ _ _ h)

/-! ## step3: SkipList and MemTable

The skip list is embedded by its container semantics (spec §1 treats the
concrete ordered structure as an external collaborator): a strictly
key-sorted association list with ordered iteration.  `set` updates in place
or inserts at the sorted position, `get` returns `undefined` for a missing
key, `range`/iteration walk in ascending key order. -/

theorem chainB_iff_chain' (f : α → α → Bool) (l : List α) :
    chainB f l = true ↔ List.Chain' (fun a b => f a b = true) l := by
  induction l with
  | nil => simp [chainB]
  | cons a rest ih =>
    cases rest with
    | nil => simp [chainB]
    | cons b rest' =>
      simp only [chainB, Bool.and_eq_true, List.chain'_cons, ih]

/-- C1: the claim states that a tombstone written by `delete` is stored in the
sorted tables like any other value, so a flushed deletion shadows older values
and the deepest-level table after compaction does not contain the key.  The
code violates this: `MemTable.TOMBSTONE` is `Symbol('TOMBSTONE')` while the
SSTable writer converts only `Symbol.for('TOMBSTONE')`, so `JSON.stringify`
drops the value property of a flushed tombstone.  After `set k=1`, flush,
`delete k`, flush, a read of `k` returns `1` (the deletion does not shadow the
older value), and after compacting Level 0 the deepest-level table still
contains an entry for `k` (with no value property); `get k` then returns
absent only because the valueless entry reads as `undefined`. -/
theorem c1_flushed_delete_loses_tombstone :
    c1AfterSecondFlush.map (fun s => LSMTree.get s kStr) =
      some (some (JSV.json (.num 1))) ∧
    c1AfterCompaction.map
        (fun s => ((s.levels.getD 1 []).map Table.blocks, LSMTree.get s kStr)) =
      some ([[[(kStr, none)]]], some JSV.undef) := by
  constructor <;> rfl

/-! ## C2 -/

/-- C2: the claim states WAL replay applies `M.delete(k)` for every DELETE
record, leaving a tombstone in the recovered MemTable.  The code violates
this: `WriteAheadLog.recover` returns a `Map` in which a DELETE simply
removed the key, and the values `_recover` iterates are `JSON.parse` results,
never symbols, so `this.memtable.delete` is never invoked.  At the failing
input (a table holding `k = 7` on disk, a WAL ending with `DELETE k`) the
recovered MemTable has no binding at all for `k` — not a tombstone — and the
engine resurrects the deleted key: `get k = 7`. -/
theorem c2_recovery_drops_delete_records :
    c2Recovered.map
        (fun s => (MemTable.get s.memtable kStr, LSMTree.get s kStr)) =
      some (JSV.undef, some (JSV.json (.num 7))) := by
  rfl

/-! ## C4 -/

/-- C4: the claim states that after open the Level-0 list is ordered by file
sequence number, so the table with the largest sequence number wins a point
read.  The code violates this: `_recover` pushes readers in directory
enumeration order and never sorts.  When the enumeration lists `level0_2.sst`
(holding `k = 22`) before `level0_1.sst` (holding `k = 11`), the recovered
Level-0 list is `[seq 2, seq 1]`; the read loop walks the array from its end,
so the seq-1 table is probed first and the *older* value `11` wins. -/
theorem c4_level0_recovered_in_enumeration_order :
    c4Recovered.map (fun s => (s.levels.getD 0 [], LSMTree.get s kStr)) =
      some ([c4NewerTable, c4OlderTable], some (JSV.json (.num 11))) := by
  rfl

/-! ## C5 -/

/-- C5 counterexample: a WAL whose first line is corrupt and whose second line
is `SET "a" 1`.  The claim says replay yields exactly the operations of the
longest cleanly-parseable prefix — here the empty prefix, as replay of the
corrupt line alone shows — but the code's replay applies the record that
follows the unparseable one. -/
theorem c5_record_after_corruption_contributes :
    WriteAheadLog.recover [WalLine.corrupt, WalLine.good (.set (strOf "a") (.num 1))] =
      [(strOf "a", Json.num 1)] ∧
    WriteAheadLog.recover [WalLine.corrupt] = [] := by
  constructor <;> rfl

/-- C5 amended: each unparseable record is skipped individually with a
diagnostic and replay *continues*; the recovered state is the replay of all
parseable records in order, regardless of where corrupt lines sit (the stream
is not truncated at the first unparseable record). -/
theorem c5_recover_replays_all_parseable_records (lines : List WalLine) :
    WriteAheadLog.recover lines =
      WriteAheadLog.recover (lines.filter WalLine.isParseable) := by
  suffices h : ∀ store : List (Str × Json),
      lines.foldl WriteAheadLog.replayLine store =
        (lines.filter WalLine.isParseable).foldl WriteAheadLog.replayLine store from
    h []
  induction lines with
  | nil => intro store; rfl
  | cons line rest ih =>
    intro store
    cases line with
    | good r => simpa [WalLine.isParseable] using ih (WriteAheadLog.replayLine store (.good r))
    | corrupt => simpa [WalLine.isParseable, WriteAheadLog.replayLine] using ih store

/-! ## C6 -/

/-- C6 counterexample: the input stream `[(b, 1), (a, 2)]` is not ascending
(`a < b` in code-unit order), yet `SSTableWriter.write` does not raise — it
returns a footer and writes the file. -/
theorem c6_write_accepts_unsorted_input :
    strLt (strOf "a") (strOf "b") = true ∧
    (SSTableWriter.write 4096
        [(strOf "b", .json (.num 1)), (strOf "a", .json (.num 2))]).isOk = true := by
  constructor <;> rfl

/-- C6 amended: the writer validates only emptiness — `write` throws exactly
when the entry stream is empty (and in that case throws before opening the
file, leaving the disk unchanged); out-of-order input is not detected and
produces a table file recording the input order. -/
theorem c6_write_errors_exactly_on_empty (blockSize : Nat)
    (entries : List (Str × JSV)) :
    (SSTableWriter.write blockSize entries).isOk = !entries.isEmpty := by
  cases entries with
  | nil => rfl
  | cons e rest => rfl

/-! ## C9 -/

/-- C9: invoking `_compactLevel` with `level ≥ maxLevels - 1` returns
immediately, leaving the entire engine state — the MemTable, every level's
table list (and hence every on-disk table file, which this embedding stores
in `levels`), the sequence counter, and the WAL — unchanged. -/
theorem c9_compact_at_deepest_level_noop (s : LSMTree) (level : Nat)
    (h : s.maxLevels - 1 ≤ level) :
    LSMTree.compactLevel s level = some s := by
  unfold LSMTree.compactLevel
  rw [if_pos h]

/-! ## Writer and reader lemmas (C7, C10) -/

theorem buildIndexAux_length (bs : List (List SerEntry)) :
    ∀ off : Nat, (buildIndexAux bs off).length = bs.length := by
  induction bs with
  | nil => intro off; rfl
  | cons b rest ih => intro off; simp [buildIndexAux, ih]

theorem buildDataBlocks_flatten (blockSize : Nat) (es : List SerEntry) :
    ∀ (cur : List SerEntry) (curSize : Nat),
      (SSTableWriter.buildDataBlocks blockSize es cur curSize).flatten = cur ++ es := by
  induction es with
  | nil =>
    intro cur _
    by_cases hc : cur.isEmpty
    · simp [SSTableWriter.buildDataBlocks, hc, List.isEmpty_iff.mp hc]
    · simp [SSTableWriter.buildDataBlocks, hc]
  | cons e rest ih =>
    intro cur curSize
    simp only [SSTableWriter.buildDataBlocks]
    split
    · simp [ih]
    · rw [ih]; simp

/-- Shape of a successful `write`: the blocks are the greedy grouping of the
converted entries, the index mirrors the blocks, and the footer's min/max are
the first/last converted keys. -/
theorem write_ok_shape (blockSize : Nat) (entries : List (Str × JSV)) (t : Table)
    (h : SSTableWriter.write blockSize entries = .ok t) :
    t.blocks = SSTableWriter.buildDataBlocks blockSize (writerEntries entries) [] 0 ∧
    t.index = buildIndexAux t.blocks 0 ∧
    t.footer.minKey = ((writerEntries entries).headD ([], none)).1 ∧
    t.footer.maxKey = ((writerEntries entries).getLastD ([], none)).1 := by
  simp only [SSTableWriter.write] at h
  split at h
  · exact absurd h (by simp)
  · injection h with h
    subst h
    exact ⟨rfl, rfl, rfl, rfl⟩

theorem binarySearchAux_some (entries : List SerEntry) (key : Str) :
    ∀ (fuel : Nat) (left right : Int) (e : SerEntry),
      SSTableReader.binarySearchAux entries key fuel left right = some e →
      e.1 = key ∧ e ∈ entries := by
  intro fuel
  induction fuel with
  | zero => intro l r e h; exact absurd h (by simp [SSTableReader.binarySearchAux])
  | succ fuel ih =>
    intro l r e h
    simp only [SSTableReader.binarySearchAux] at h
    split at h
    · split at h
      · exact absurd h (by simp)
      · rename_i e' hg
        split at h
        · rename_i hke
          injection h with h
          subst h
          exact ⟨hke, List.get?_mem hg⟩
        · split at h
          · exact ih _ _ _ h
          · exact ih _ _ _ h
    · exact absurd h (by simp)

theorem findBlockAux_lt_length (index : List IndexEntry) (key : Str) :
    ∀ (fuel : Nat) (left right result : Int),
      result < (index.length : Int) → right < (index.length : Int) →
      SSTableReader.findBlockAux index key fuel left right result <
        (index.length : Int) := by
  intro fuel
  induction fuel with
  | zero => intro l r res h1 _; simpa [SSTableReader.findBlockAux] using h1
  | succ fuel ih =>
    intro l r res h1 h2
    simp only [SSTableReader.findBlockAux]
    split
    · rename_i hlr
      split
      · exact h1
      · split
        · omega
        · split
          · exact ih _ _ _ h1 (by omega)
          · exact ih _ _ _ (by omega) h2
    · exact h1

theorem findBlockAux_ge_neg_one (index : List IndexEntry) (key : Str) :
    ∀ (fuel : Nat) (left right result : Int),
      0 ≤ left → -1 ≤ result →
      -1 ≤ SSTableReader.findBlockAux index key fuel left right result := by
  intro fuel
  induction fuel with
  | zero => intro l r res _ h2; simpa [SSTableReader.findBlockAux] using h2
  | succ fuel ih =>
    intro l r res h1 h2
    simp only [SSTableReader.findBlockAux]
    split
    · rename_i hlr
      split
      · exact h2
      · split
        · omega
        · split
          · exact ih _ _ _ h1 h2
          · exact ih _ _ _ (by omega) (by omega)
    · exact h2

theorem iterGo_eq (t : Table) :
    ∀ (idxRest : List IndexEntry) (j : Nat), j + idxRest.length = t.blocks.length →
      SSTableReader.iterGo t idxRest j =
        some ((t.blocks.drop j).flatten.map
          (fun e => (e.1, SSTableReader.decodeValue e.2))) := by
  intro idxRest
  induction idxRest with
  | nil =>
    intro j hj
    simp only [List.length_nil, Nat.add_zero] at hj
    rw [SSTableReader.iterGo, hj, List.drop_length]
    rfl
  | cons ie idxR ih =>
    intro j hj
    have hjlt : j < t.blocks.length := by
      simp only [List.length_cons] at hj; omega
    have hb : t.blocks.get? j = some (t.blocks[j]) := by
      rw [List.get?_eq_getElem?, List.getElem?_eq_getElem hjlt]
    rw [SSTableReader.iterGo, hb,
      ih (j + 1) (by simp only [List.length_cons] at hj; omega)]
    rw [List.drop_eq_getElem_cons hjlt, List.flatten_cons, List.map_append]
    rfl

/-- C7: writing a non-empty ascending entry stream of (key,
value-or-tombstone) pairs and reading the file back via the reader's full
iteration yields the same stream: same keys in the same order, the tombstone
(`Symbol.for('TOMBSTONE')`, the sentinel of the writer/reader pair) mapped
back to itself, values equal to the originals.  Values are serializable
payloads distinct from the tombstone's on-disk encoding (`roundtrippable`),
as the spec's data model requires. -/
theorem c7_writer_reader_roundtrip (blockSize : Nat) (entries : List (Str × JSV))
    (t : Table)
    (hne : entries ≠ [])
    (hsort : chainB strLt (entries.map Prod.fst) = true)
    (hval : entries.all (fun e => roundtrippable e.2) = true)
    (hw : SSTableWriter.write blockSize entries = .ok t) :
    SSTableReader.iter t = some entries := by
  obtain ⟨hb, hidx, -, -⟩ := write_ok_shape blockSize entries t hw
  have hlen : t.index.length = t.blocks.length := by
    rw [hidx, buildIndexAux_length]
  unfold SSTableReader.iter
  rw [iterGo_eq t t.index 0 (by omega), List.drop_zero, hb,
    buildDataBlocks_flatten, List.nil_append]
  simp only [writerEntries, List.map_map]
  rw [List.map_congr_left (g := id) ?_, List.map_id]
  intro e he
  have hr : roundtrippable e.2 = true := List.all_eq_true.mp hval e he
  obtain ⟨k0, v0⟩ := e
  cases v0 with
  | symFor =>
    simp [Function.comp, SSTableWriter.encodeValue, serProp,
      SSTableReader.decodeValue]
  | json j =>
    have hj : j ≠ Json.str tombstoneStr := by simpa [roundtrippable] using hr
    simp [Function.comp, SSTableWriter.encodeValue, serProp,
      SSTableReader.decodeValue, hj]
  | undef => exact absurd hr (by simp [roundtrippable])
  | symMem => exact absurd hr (by simp [roundtrippable])

/-- C7 witness: the concrete stream written at the default block size reads
back unchanged. -/
theorem c7_writer_reader_roundtrip_witness :
    c7Entries ≠ [] ∧ chainB strLt (c7Entries.map Prod.fst) = true ∧
    c7Entries.all (fun e => roundtrippable e.2) = true ∧
    SSTableWriter.write 4096 c7Entries = .ok c7Table ∧
    SSTableReader.iter c7Table = some c7Entries :=
  ⟨by decide, by decide, by decide, rfl,
    c7_writer_reader_roundtrip 4096 c7Entries c7Table (by decide) (by decide)
      (by decide) rfl⟩

/-! ## C10 -/

/-- C10: for every key within a sorted table's `[min_key, max_key]` footer
range but equal to no stored key — in particular a key falling strictly
between two blocks — `SSTableReader.get` returns absent (`undefined`, i.e.
`some JSV.undef` here) and raises no error (the result is not `none`): the
index search selects a block (never an out-of-bounds position), and the
in-block binary search can only return an entry whose key equals the probe. -/
theorem c10_get_absent_for_unstored_key (blockSize : Nat)
    (entries : List (Str × JSV)) (t : Table) (k : Str)
    (hsort : chainB strLt (entries.map Prod.fst) = true)
    (hw : SSTableWriter.write blockSize entries = .ok t)
    (hmin : strLe t.footer.minKey k = true)
    (hmax : strLe k t.footer.maxKey = true)
    (habsent : k ∉ entries.map Prod.fst) :
    SSTableReader.get t k = some JSV.undef := by
  obtain ⟨hb, hidx, -, -⟩ := write_ok_shape blockSize entries t hw
  have hlen : t.index.length = t.blocks.length := by
    rw [hidx, buildIndexAux_length]
  have hc1 : strLt k t.footer.minKey = false := by
    simpa [strLe, Bool.not_eq_true'] using hmin
  have hc2 : strLt t.footer.maxKey k = false := by
    simpa [strLe, Bool.not_eq_true'] using hmax
  unfold SSTableReader.get
  rw [if_neg (by simp [hc1, hc2])]
  by_cases hbi : SSTableReader.findBlockIndex t k = -1
  · simp [hbi]
  · rw [if_neg hbi]
    have hge : -1 ≤ SSTableReader.findBlockIndex t k :=
      findBlockAux_ge_neg_one t.index k _ _ _ _ (by omega) (by omega)
    have hlt : SSTableReader.findBlockIndex t k < (t.index.length : Int) :=
      findBlockAux_lt_length t.index k _ _ _ _ (by omega) (by omega)
    have htn : (SSTableReader.findBlockIndex t k).toNat < t.index.length := by
      omega
    obtain ⟨ie, hie⟩ : ∃ ie,
        t.index.get? (SSTableReader.findBlockIndex t k).toNat = some ie :=
      ⟨_, List.get?_eq_get htn⟩
    obtain ⟨blk, hblk⟩ : ∃ blk,
        t.blocks.get? (SSTableReader.findBlockIndex t k).toNat = some blk :=
      ⟨_, List.get?_eq_get (by omega)⟩
    rw [hie, hblk]
    dsimp only
    cases hbs : SSTableReader.binarySearchBlock blk k with
    | none => rfl
    | some e =>
      obtain ⟨hke, hmem⟩ := binarySearchAux_some blk k _ _ _ e hbs
      exfalso
      apply habsent
      have hmem2 : e ∈ t.blocks.flatten :=
        List.mem_flatten.mpr ⟨blk, List.get?_mem hblk, hmem⟩
      rw [hb, buildDataBlocks_flatten, List.nil_append] at hmem2
      have : e.1 ∈ (writerEntries entries).map Prod.fst :=
        List.mem_map.mpr ⟨e, hmem2, rfl⟩
      simpa [writerEntries, List.map_map, hke, Function.comp] using this

/-- C10 witness: probing "b", which lies strictly between the end key of
block 0 and the start key of block 1 of the concrete two-block table. -/
theorem c10_get_absent_for_unstored_key_witness :
    chainB strLt (c10Entries.map Prod.fst) = true ∧
    SSTableWriter.write 1 c10Entries = .ok c10Table ∧
    c10Table.blocks.length = 2 ∧
    strLe c10Table.footer.minKey (strOf "b") = true ∧
    strLe (strOf "b") c10Table.footer.maxKey = true ∧
    (strOf "b") ∉ c10Entries.map Prod.fst ∧
    SSTableReader.get c10Table (strOf "b") = some JSV.undef :=
  ⟨by decide, rfl, rfl, by decide, by decide, by decide,
    c10_get_absent_for_unstored_key 1 c10Entries c10Table (strOf "b")
      (by decide) rfl (by decide) (by decide) (by decide)⟩

/-! ## C8 -/

theorem recoverFilesAux_counter_mono (files : List (Option (Nat × Nat) × Table)) :
    ∀ (levels : List (List Table)) (counter : Nat) (out : List (List Table) × Nat),
      LSMTree.recoverFilesAux files levels counter = some out → counter ≤ out.2 := by
  induction files with
  | nil =>
    intro levels counter out h
    simp only [LSMTree.recoverFilesAux, Option.some.injEq] at h
    rw [← h]
  | cons f rest ih =>
    intro levels counter out h
    obtain ⟨nameOpt, t⟩ := f
    cases nameOpt with
    | none => exact ih levels counter out h
    | some ls =>
      obtain ⟨l, seq⟩ := ls
      simp only [LSMTree.recoverFilesAux] at h
      cases hg : levels.get? l with
      | none => rw [hg] at h; exact absurd h (by simp)
      | some lvl =>
        rw [hg] at h
        have := ih _ _ _ h
        split at this <;> omega

/-- Every matched `level<L>_<seq>` file drives the counter strictly past its
sequence number. -/
theorem recoverFilesAux_seq_lt (files : List (Option (Nat × Nat) × Table)) :
    ∀ (levels : List (List Table)) (counter : Nat) (out : List (List Table) × Nat),
      LSMTree.recoverFilesAux files levels counter = some out →
      ∀ l seq t, (some (l, seq), t) ∈ files → seq < out.2 := by
  induction files with
  | nil => intro _ _ _ _ _ _ _ hmem; simp at hmem
  | cons f rest ih =>
    intro levels counter out h l seq t hmem
    obtain ⟨nameOpt, t'⟩ := f
    rcases List.mem_cons.mp hmem with heq | hmem'
    · injection heq with h1 h2
      subst h2
      cases nameOpt with
      | none => exact absurd h1 (by simp)
      | some ls =>
        obtain ⟨l0, seq0⟩ := ls
        injection h1 with h1
        injection h1 with hl hseq
        subst hl; subst hseq
        simp only [LSMTree.recoverFilesAux] at h
        cases hg : levels.get? l with
        | none => rw [hg] at h; exact absurd h (by simp)
        | some lvl =>
          rw [hg] at h
          have := recoverFilesAux_counter_mono rest _ _ _ h
          split at this <;> omega
    · cases nameOpt with
      | none => exact ih _ _ _ h l seq t hmem'
      | some ls =>
        obtain ⟨l0, seq0⟩ := ls
        simp only [LSMTree.recoverFilesAux] at h
        cases hg : levels.get? l0 with
        | none => rw [hg] at h; exact absurd h (by simp)
        | some lvl => rw [hg] at h; exact ih _ _ _ h l seq t hmem'

/-- C8: whenever `open` succeeds, the recovered file-sequence counter is
strictly greater than every sequence number parsed from a
`level<L>_<seq>.sst` file name in the directory enumeration, so names
subsequently allocated by flush or compaction (`sstableCounter++`) are fresh. -/
theorem c8_open_counter_exceeds_all_seqs (mms l0f mx : Nat)
    (files : List (Option (Nat × Nat) × Table)) (wal : List WalLine)
    (s : LSMTree) (h : LSMTree.openEngine mms l0f mx files wal = some s) :
    ∀ l seq t, (some (l, seq), t) ∈ files → seq < s.sstableCounter := by
  intro l seq t hmem
  simp only [LSMTree.openEngine, bind, Option.bind] at h
  cases hrec : LSMTree.recoverFilesAux files (List.replicate mx []) 0 with
  | none => rw [hrec] at h; exact absurd h (by simp)
  | some out =>
    rw [hrec] at h
    obtain ⟨levels, counter⟩ := out
    simp only [Option.some.injEq] at h
    have hcount : s.sstableCounter = counter := by rw [← h]
    rw [hcount]
    exact recoverFilesAux_seq_lt files _ _ _ hrec l seq t hmem

/-- C8 witness: opening the concrete directory gives counter 6, and
applying the theorem to the file `level0_5.sst` yields `5 < 6`. -/
theorem c8_open_counter_exceeds_all_seqs_witness :
    LSMTree.openEngine 0 4 7 c8Files [] = some c8State ∧
      5 < c8State.sstableCounter :=
  ⟨rfl, c8_open_counter_exceeds_all_seqs 0 4 7 c8Files [] c8State rfl 0 5
    emptyTable (by decide)⟩

instance : IsTrans Str (fun a b => strLt a b = true) :=
  ⟨fun _ _ _ h1 h2 => strLt_trans h1 h2⟩

theorem bool_and_elim {a b : Bool} (h : (a && b) = true) :
    a = true ∧ b = true := by
  simp only [Bool.and_eq_true] at h
  exact h

theorem chainB_tail (f : α → α → Bool) (a : α) (l : List α)
    (h : chainB f (a :: l) = true) : chainB f l = true := by
  cases l with
  | nil => rfl
  | cons b rest => exact (bool_and_elim h).2

theorem chainB_head_le (l : List Str) (d : Str)
    (h : chainB (fun a b => strLt a b) l = true) :
    ∀ x ∈ l, strLe (l.headD d) x = true := by
  induction l with
  | nil => intro x hx; simp at hx
  | cons a rest ih =>
    intro x hx
    rcases List.mem_cons.mp hx with rfl | hx'
    · exact strLe_refl x
    · cases rest with
      | nil => simp at hx'
      | cons b rest' =>
        have hab : strLt a b = true := (bool_and_elim h).1
        have htail := ih (chainB_tail _ _ _ h) x hx'
        exact strLe_trans (strLe_of_lt hab) htail

theorem chainB_le_last (l : List Str)
    (h : chainB (fun a b => strLt a b) l = true) :
    ∀ d : Str, ∀ x ∈ l, strLe x (l.getLastD d) = true := by
  induction l with
  | nil => intro d x hx; simp at hx
  | cons a rest ih =>
    intro d x hx
    rw [List.getLastD_cons]
    rcases List.mem_cons.mp hx with rfl | hx'
    · cases rest with
      | nil => exact strLe_refl x
      | cons b rest' =>
        have hab : strLt x b = true := (bool_and_elim h).1
        have hbl := ih (chainB_tail _ _ _ h) x b (List.mem_cons_self b rest')
        exact strLe_trans (strLe_of_lt hab) hbl
    · exact ih (chainB_tail _ _ _ h) a x hx'

theorem getLastD_map_fst (l : List SerEntry) (d : SerEntry) :
    (l.map Prod.fst).getLastD d.1 = (l.getLastD d).1 := by
  induction l generalizing d with
  | nil => rfl
  | cons e rest ih =>
    rw [List.map_cons, List.getLastD_cons, List.getLastD_cons, ih e]

theorem wfBlock_start_le (b : List SerEntry) (hwf : wfBlock b = true) :
    ∀ e ∈ b, strLe (blockStartKey b) e.1 = true := by
  intro e he
  have hch : chainB (fun x y => strLt x y) (b.map Prod.fst) = true := by
    simp only [wfBlock, Bool.and_eq_true] at hwf
    exact hwf.1.2
  cases b with
  | nil => simp at he
  | cons e0 rest =>
    have := chainB_head_le ((e0 :: rest).map Prod.fst) e0.1 hch e.1
      (List.mem_map.mpr ⟨e, he, rfl⟩)
    simpa [blockStartKey] using this

theorem wfBlock_le_end (b : List SerEntry) (hwf : wfBlock b = true) :
    ∀ e ∈ b, strLe e.1 (blockEndKey b) = true := by
  intro e he
  have hch : chainB (fun x y => strLt x y) (b.map Prod.fst) = true := by
    simp only [wfBlock, Bool.and_eq_true] at hwf
    exact hwf.1.2
  have := chainB_le_last (b.map Prod.fst) hch (([], none) : SerEntry).1 e.1
    (List.mem_map.mpr ⟨e, he, rfl⟩)
  rw [getLastD_map_fst b (([], none) : SerEntry)] at this
  exact this

theorem wfBlock_start_le_end (b : List SerEntry) (hwf : wfBlock b = true) :
    strLe (blockStartKey b) (blockEndKey b) = true := by
  cases hb : b with
  | nil => subst hb; simp [wfBlock] at hwf
  | cons e0 rest =>
    subst hb
    exact wfBlock_le_end _ hwf e0 (List.mem_cons_self e0 rest) |>.symm ▸
      (strLe_trans (wfBlock_start_le _ hwf e0 (List.mem_cons_self e0 rest))
        (wfBlock_le_end _ hwf e0 (List.mem_cons_self e0 rest)))

theorem wfIndexBlocks_cons {ie : IndexEntry} {idxR : List IndexEntry}
    {b : List SerEntry} {bsR : List (List SerEntry)}
    (h : wfIndexBlocks (ie :: idxR) (b :: bsR) = true) :
    wfBlock b = true ∧ ie.startKey = blockStartKey b ∧
      ie.endKey = blockEndKey b ∧ wfIndexBlocks idxR bsR = true := by
  simp only [wfIndexBlocks, Bool.and_eq_true, decide_eq_true_eq] at h
  exact ⟨h.1.1.1, h.1.1.2, h.1.2, h.2⟩

theorem wfIndexBlocks_shape {idxS : List IndexEntry}
    {bsS : List (List SerEntry)} (h : wfIndexBlocks idxS bsS = true) :
    (idxS = [] ∧ bsS = []) ∨
      ∃ ie idxR b bsR, idxS = ie :: idxR ∧ bsS = b :: bsR := by
  cases idxS with
  | nil =>
    cases bsS with
    | nil => exact Or.inl ⟨rfl, rfl⟩
    | cons b bsR => simp [wfIndexBlocks] at h
  | cons ie idxR =>
    cases bsS with
    | nil => simp [wfIndexBlocks] at h
    | cons b bsR => exact Or.inr ⟨ie, idxR, b, bsR, rfl, rfl⟩

theorem chain_start_le_mem :
    ∀ (idxS : List IndexEntry) (bsS : List (List SerEntry)),
      wfIndexBlocks idxS bsS = true →
      chainB (fun i j => strLt i.endKey j.startKey) idxS = true →
      ∀ ie0 ∈ idxS.head?, ∀ ieS ∈ idxS, strLe ie0.startKey ieS.startKey = true := by
  intro idxS
  induction idxS with
  | nil => intro bsS _ _ ie0 h0; simp at h0
  | cons ie idxR ih =>
    intro bsS hwf hch ie0 h0 ieS hS
    simp only [List.head?_cons, Option.mem_def, Option.some.injEq] at h0
    subst h0
    rcases List.mem_cons.mp hS with rfl | hS'
    · exact strLe_refl _
    · rcases wfIndexBlocks_shape hwf with ⟨h1, _⟩ | ⟨ie', idxR', b, bsR, he, hb⟩
      · simp at h1
      · injection he with he1 he2
        subst he1; subst he2; subst hb
        obtain ⟨hwb, hsk, hek, hwfR⟩ := wfIndexBlocks_cons hwf
        cases idxR with
        | nil => simp at hS'
        | cons ie1 idxR2 =>
          have h01 : strLt ie.endKey ie1.startKey = true :=
            (bool_and_elim hch).1
          have hrest := ih _ hwfR (chainB_tail _ _ _ hch) ie1
            (by simp) ieS hS'
          have hse : strLe ie.startKey ie.endKey = true := by
            rw [hsk, hek]; exact wfBlock_start_le_end b hwb
          exact strLe_trans hse (strLe_trans (strLe_of_lt h01) hrest)

theorem wf_flatten_ge_start :
    ∀ (idxS : List IndexEntry) (bsS : List (List SerEntry)),
      wfIndexBlocks idxS bsS = true →
      chainB (fun i j => strLt i.endKey j.startKey) idxS = true →
      ∀ ie0 ∈ idxS.head?, ∀ e ∈ bsS.flatten, strLe ie0.startKey e.1 = true := by
  intro idxS
  induction idxS with
  | nil => intro bsS _ _ ie0 h0; simp at h0
  | cons ie idxR ih =>
    intro bsS hwf hch ie0 h0 e he
    simp only [List.head?_cons, Option.mem_def, Option.some.injEq] at h0
    subst h0
    rcases wfIndexBlocks_shape hwf with ⟨h1, _⟩ | ⟨ie', idxR', b, bsR, he', hb⟩
    · simp at h1
    · injection he' with he1 he2
      subst he1; subst he2; subst hb
      obtain ⟨hwb, hsk, hek, hwfR⟩ := wfIndexBlocks_cons hwf
      rw [List.flatten_cons] at he
      rcases List.mem_append.mp he with hin | hin
      · rw [hsk]
        exact wfBlock_start_le b hwb e hin
      · cases idxR with
        | nil =>
          rcases wfIndexBlocks_shape hwfR with ⟨_, h2⟩ | ⟨_, _, _, _, h2, _⟩
          · subst h2; simp at hin
          · simp at h2
        | cons ie1 idxR2 =>
          have h01 : strLt ie.endKey ie1.startKey = true :=
            (bool_and_elim hch).1
          have hrest := ih _ hwfR (chainB_tail _ _ _ hch) ie1 (by simp) e hin
          have hse : strLe ie.startKey ie.endKey = true := by
            rw [hsk, hek]; exact wfBlock_start_le_end b hwb
          exact strLe_trans hse (strLe_trans (strLe_of_lt h01) hrest)

theorem pre_blocks_lt_start :
    ∀ (idxS : List IndexEntry) (bsS : List (List SerEntry)) (n : Nat)
      (ieS : IndexEntry),
      wfIndexBlocks idxS bsS = true →
      chainB (fun i j => strLt i.endKey j.startKey) idxS = true →
      idxS.get? n = some ieS →
      ∀ e ∈ (bsS.take n).flatten, strLt e.1 ieS.startKey = true := by
  intro idxS
  induction idxS with
  | nil => intro bsS n ieS _ _ hg; simp [List.get?] at hg
  | cons ie idxR ih =>
    intro bsS n ieS hwf hch hg e he
    rcases wfIndexBlocks_shape hwf with ⟨h1, _⟩ | ⟨ie', idxR', b, bsR, he', hb⟩
    · simp at h1
    · injection he' with he1 he2
      subst he1; subst he2; subst hb
      obtain ⟨hwb, hsk, hek, hwfR⟩ := wfIndexBlocks_cons hwf
      cases n with
      | zero => simp at he
      | succ m =>
        simp only [List.get?] at hg
        rw [List.take_succ_cons, List.flatten_cons] at he
        cases idxR with
        | nil => simp [List.get?] at hg
        | cons ie1 idxR2 =>
          have h01 : strLt ie.endKey ie1.startKey = true :=
            (bool_and_elim hch).1
          have hmono := chain_start_le_mem (ie1 :: idxR2) bsR hwfR
            (chainB_tail _ _ _ hch) ie1 (by simp) ieS (List.get?_mem hg)
          rcases List.mem_append.mp he with hin | hin
          · have hle : strLe e.1 ie.endKey = true := by
              rw [hek]; exact wfBlock_le_end b hwb e hin
            exact strLt_of_le_of_lt hle (strLt_of_lt_of_le h01 hmono)
          · exact ih bsR m ieS hwfR (chainB_tail _ _ _ hch) hg e hin

/-- C9 witness: the concrete default-configured engine compacted at level 6
(the deepest level). -/
theorem c9_compact_at_deepest_level_noop_witness :
    c9State.maxLevels - 1 ≤ 6 ∧ LSMTree.compactLevel c9State 6 = some c9State :=
  ⟨by decide, c9_compact_at_deepest_level_noop c9State 6 (by decide)⟩

theorem wfIndexBlocks_drop :
    ∀ (n : Nat) (idxS : List IndexEntry) (bsS : List (List SerEntry)),
      wfIndexBlocks idxS bsS = true →
      wfIndexBlocks (idxS.drop n) (bsS.drop n) = true := by
  intro n
  induction n with
  | zero => intro _ _ h; simpa using h
  | succ m ih =>
    intro idxS bsS h
    rcases wfIndexBlocks_shape h with ⟨h1, h2⟩ | ⟨ie, idxR, b, bsR, h1, h2⟩
    · subst h1; subst h2; simpa using h
    · subst h1; subst h2
      exact ih _ _ (wfIndexBlocks_cons h).2.2.2

theorem chainB_drop (f : α → α → Bool) :
    ∀ (n : Nat) (l : List α), chainB f l = true → chainB f (l.drop n) = true := by
  intro n
  induction n with
  | zero => intro l h; simpa using h
  | succ m ih =>
    intro l h
    cases l with
    | nil => exact h
    | cons a rest => exact ih rest (chainB_tail _ _ _ h)

/-- Any non-`-1` answer of the index search points at an index entry whose
`startKey` does not exceed the probed key (blocks returned via the first
branch satisfy it outright; the fallback `result` is only ever set in the
third branch, where `key < startKey` just failed). -/
theorem findBlockAux_startKey_le (index : List IndexEntry) (key : Str) :
    ∀ (fuel : Nat) (left right result out : Int),
      SSTableReader.findBlockAux index key fuel left right result = out →
      (result ≠ -1 →
        ∃ ie, index.get? result.toNat = some ie ∧ strLe ie.startKey key = true) →
      out ≠ -1 →
      ∃ ie, index.get? out.toNat = some ie ∧ strLe ie.startKey key = true := by
  intro fuel
  induction fuel with
  | zero =>
    intro l r res out heq hres hne
    simp only [SSTableReader.findBlockAux] at heq
    subst heq
    exact hres hne
  | succ fuel ih =>
    intro l r res out heq hres hne
    simp only [SSTableReader.findBlockAux] at heq
    split at heq
    · rename_i hlr
      split at heq
      · subst heq; exact hres hne
      · rename_i block hg
        split at heq
        · rename_i hcond
          subst heq
          exact ⟨block, hg, (bool_and_elim hcond).1⟩
        · split at heq
          · exact ih _ _ _ _ heq hres hne
          · rename_i hcond1 hcond2
            refine ih _ _ _ _ heq (fun _ => ⟨block, hg, ?_⟩) hne
            cases hb : strLt key block.startKey with
            | false => simp [strLe, hb]
            | true => exact absurd hb hcond2
    · subst heq; exact hres hne

theorem rangeGo_eq (t : Table) (lo hi : Str) :
    ∀ (idxS : List IndexEntry) (bsS : List (List SerEntry)) (j : Nat),
      t.blocks.drop j = bsS →
      wfIndexBlocks idxS bsS = true →
      chainB (fun i1 i2 => strLt i1.endKey i2.startKey) idxS = true →
      SSTableReader.rangeGo t lo hi idxS j =
        some ((bsS.flatten.filter (fun e => strLe lo e.1 && strLe e.1 hi)).map
          (fun e => (e.1, SSTableReader.decodeValue e.2))) := by
  intro idxS
  induction idxS with
  | nil =>
    intro bsS j hdrop hwf hch
    rcases wfIndexBlocks_shape hwf with ⟨_, h2⟩ | ⟨_, _, _, _, h1, _⟩
    · subst h2; rfl
    · simp at h1
  | cons ie idxR ih =>
    intro bsS j hdrop hwf hch
    rcases wfIndexBlocks_shape hwf with ⟨h1, _⟩ | ⟨ie', idxR', b, bsR, h1, h2⟩
    · simp at h1
    · injection h1 with h1a h1b
      subst h1a; subst h1b; subst h2
      obtain ⟨hwb, hsk, hek, hwfR⟩ := wfIndexBlocks_cons hwf
      have hget : t.blocks.get? j = some b := by
        have h0 : (t.blocks.drop j).get? 0 = t.blocks.get? j := by
          rw [List.get?_drop, Nat.add_zero]
        rw [← h0, hdrop]
        rfl
      have hdrop1 : t.blocks.drop (j + 1) = bsR := by
        have h0 : t.blocks.drop (j + 1) = (t.blocks.drop j).drop 1 := by
          rw [List.drop_drop]
        rw [h0, hdrop]
        rfl
      by_cases hbreak : strLt hi ie.startKey = true
      · rw [SSTableReader.rangeGo, if_pos hbreak]
        have hnil : (b :: bsR).flatten.filter
            (fun e => strLe lo e.1 && strLe e.1 hi) = [] := by
          rw [List.filter_eq_nil_iff]
          intro e he
          have hge : strLe ie.startKey e.1 = true :=
            wf_flatten_ge_start (ie :: idxR) (b :: bsR) hwf hch ie (by simp) e he
          have hlt : strLt hi e.1 = true := strLt_of_lt_of_le hbreak hge
          simp only [strLe, Bool.and_eq_true, Bool.not_eq_true']
          intro hcon
          rw [hlt] at hcon
          exact absurd hcon.2 (by simp)
        rw [hnil]
        rfl
      · rw [SSTableReader.rangeGo, if_neg hbreak, hget,
          ih bsR (j + 1) hdrop1 hwfR (chainB_tail _ _ _ hch)]
        simp only [Option.bind_eq_bind, Option.some_bind, List.flatten_cons,
          List.filter_append, List.map_append]

/-- A well-formed table's `range` returns exactly its entries with keys in
`[startKey, endKey]`, decoded, in table order. -/
theorem tableRange_eq (t : Table) (lo hi : Str) (hwf : wfTable t = true) :
    SSTableReader.range t lo hi = some (rangeList t lo hi) := by
  obtain ⟨hwfib, hch⟩ := bool_and_elim hwf
  unfold SSTableReader.range
  by_cases hneg : SSTableReader.findBlockIndex t lo = -1
  · simp only [hneg, if_pos, List.drop_zero]
    have := rangeGo_eq t lo hi t.index t.blocks 0 (by rw [List.drop_zero])
      hwfib hch
    simpa [rangeList] using this
  · simp only [if_neg hneg]
    obtain ⟨ieS, hgS, hleS⟩ :=
      findBlockAux_startKey_le t.index lo (t.index.length + 1) 0
        ((t.index.length : Int) - 1) (-1) (SSTableReader.findBlockIndex t lo)
        rfl (fun h => absurd rfl h) hneg
    rw [rangeGo_eq t lo hi (t.index.drop (SSTableReader.findBlockIndex t lo).toNat)
      (t.blocks.drop (SSTableReader.findBlockIndex t lo).toNat)
      (SSTableReader.findBlockIndex t lo).toNat rfl
      (wfIndexBlocks_drop _ _ _ hwfib) (chainB_drop _ _ _ hch)]
    have hnil : (t.blocks.take (SSTableReader.findBlockIndex t lo).toNat).flatten.filter
        (fun e => strLe lo e.1 && strLe e.1 hi) = [] := by
      rw [List.filter_eq_nil_iff]
      intro e he
      have hltS := pre_blocks_lt_start t.index t.blocks
        (SSTableReader.findBlockIndex t lo).toNat ieS hwfib hch hgS e he
      have hlt : strLt e.1 lo = true := strLt_of_lt_of_le hltS hleS
      simp only [Bool.and_eq_true]
      intro hcon
      have : strLe lo e.1 = false := by simp [strLe, hlt]
      rw [this] at hcon
      exact absurd hcon.1 (by simp)
    simp only [rangeList]
    conv_rhs => rw [← List.take_append_drop
      (SSTableReader.findBlockIndex t lo).toNat t.blocks]
    rw [List.flatten_append, List.filter_append, hnil, List.nil_append]

/-- `filter` distributes through `flatten`. -/
theorem filter_flatten_eq (p : α → Bool) (L : List (List α)) :
    L.flatten.filter p = (L.map (List.filter p)).flatten := by
  induction L with
  | nil => rfl
  | cons l rest ih => simp [List.filter_append, ih]

theorem orElseO_none (a : Option α) : orElseO a none = a := by
  cases a <;> rfl

theorem lastVal_filter (L : List (Str × α)) (p : Str → Bool) (k : Str) :
    lastVal (L.filter (fun e => p e.1)) k =
      if p k = true then lastVal L k else none := by
  induction L with
  | nil => simp only [List.filter_nil, lastVal, List.foldl_nil]; split <;> rfl
  | cons e rest ih =>
    rw [List.filter_cons]
    by_cases hpe : p e.1 = true
    · rw [if_pos (by simpa using hpe), lastVal_cons, lastVal_cons, ih]
      by_cases hek : e.1 = k
      · rw [← hek, hpe]
        simp
      · simp only [if_neg hek, orElseO_none]
    · rw [if_neg (by simpa using hpe), ih]
      by_cases hpk : p k = true
      · have hek : e.1 ≠ k := fun h => hpe (h ▸ hpk)
        rw [if_pos hpk, if_pos hpk, lastVal_cons, if_neg hek, orElseO_none]
      · rw [if_neg hpk, if_neg hpk]

/-- An `Option`-valued left fold in which every step succeeds is the
corresponding pure fold. -/
theorem foldlM_option_eq {σ β : Type _} (f : σ → β → Option σ) (g : σ → β → σ) :
    ∀ l : List β, (∀ s b, b ∈ l → f s b = some (g s b)) →
      ∀ init, l.foldlM f init = some (l.foldl g init) := by
  intro l
  induction l with
  | nil => intro _ init; rfl
  | cons b rest ih =>
    intro hfg init
    rw [List.foldlM_cons, hfg init b (List.mem_cons_self b rest)]
    simp only [Option.pure_def, Option.bind_eq_bind, Option.some_bind,
      List.foldl_cons]
    exact ih (fun s b' hb' => hfg s b' (List.mem_cons_of_mem b hb')) (g init b)

theorem foldl_foldl_flatten {σ β γ : Type _} (g : σ → β → σ) (h : γ → List β) :
    ∀ (ts : List γ) (acc : σ),
      ts.foldl (fun a t => (h t).foldl g a) acc =
        ((ts.map h).flatten).foldl g acc := by
  intro ts
  induction ts with
  | nil => intro acc; rfl
  | cons t rest ih =>
    intro acc
    rw [List.foldl_cons, List.map_cons, List.flatten_cons, List.foldl_append, ih]

/-- One level's range-merge step, made explicit: fold `Map.set` over the
concatenated per-table range results. -/
theorem collectTables_eq (ts : List Table) (lo hi : Str) (acc : List (Str × JSV))
    (hall : ts.all wfTable = true) :
    LSMTree.collectTables ts lo hi acc =
      some ((ts.map (fun t => rangeList t lo hi)).flatten.foldl
        (fun m e => JsMap.set m e.1 e.2) acc) := by
  unfold LSMTree.collectTables
  rw [foldlM_option_eq _
    (fun a t => (rangeList t lo hi).foldl (fun m e => JsMap.set m e.1 e.2) a)
    ts ?hfg acc, foldl_foldl_flatten]
  case hfg =>
    intro s t ht
    rw [tableRange_eq t lo hi (List.all_eq_true.mp hall t ht)]
    rfl

/-- The whole deepest-to-shallowest level fold, made explicit. -/
theorem levelsFold_eq (lvls : List (List Table)) (lo hi : Str)
    (acc : List (Str × JSV))
    (hall : lvls.all (fun lvl => lvl.all wfTable) = true) :
    lvls.foldlM (fun a lvl => LSMTree.collectTables lvl lo hi a) acc =
      some ((lvls.map (fun lvl =>
          (lvl.map (fun t => rangeList t lo hi)).flatten)).flatten.foldl
        (fun m e => JsMap.set m e.1 e.2) acc) := by
  rw [foldlM_option_eq _
    (fun a lvl => ((lvl.map (fun t => rangeList t lo hi)).flatten).foldl
      (fun m e => JsMap.set m e.1 e.2) a)
    lvls ?hlv acc, foldl_foldl_flatten]
  case hlv =>
    intro s lvl hl
    exact collectTables_eq lvl lo hi s (List.all_eq_true.mp hall lvl hl)

/-- Sorted association lists: skipping keys `< lo` is filtering on
`lo ≤ key`. -/
theorem dropWhile_eq_filter_le (lo : Str) :
    ∀ l : List (Str × JSV),
      chainB (fun a b => strLt a b) (l.map Prod.fst) = true →
      l.dropWhile (fun e => strLt e.1 lo) = l.filter (fun e => strLe lo e.1) := by
  intro l
  induction l with
  | nil => intro _; rfl
  | cons e rest ih =>
    intro hs
    have htail : chainB (fun a b => strLt a b) (rest.map Prod.fst) = true :=
      chainB_tail _ _ _ hs
    by_cases hlt : strLt e.1 lo = true
    · rw [List.dropWhile_cons_of_pos (by simpa using hlt),
        List.filter_cons_of_neg (by simp [strLe, hlt]), ih htail]
    · have hle : strLe lo e.1 = true := by
        simp only [strLe, Bool.not_eq_true']
        simpa using hlt
      rw [List.dropWhile_cons_of_neg (by simpa using hlt),
        List.filter_cons_of_pos (by simpa using hle)]
      rw [List.filter_eq_self.mpr]
      intro x hx
      have hx1 : strLe e.1 x.1 = true := by
        have := chainB_head_le (l := (e :: rest).map Prod.fst) (d := e.1) hs x.1
          (by exact List.mem_map.mpr ⟨x, List.mem_cons_of_mem e hx, rfl⟩)
        simpa using this
      simpa using strLe_trans hle hx1

/-- Sorted association lists: stopping after `hi` is filtering on
`key ≤ hi`. -/
theorem takeWhile_eq_filter_le (hi : Str) :
    ∀ l : List (Str × JSV),
      chainB (fun a b => strLt a b) (l.map Prod.fst) = true →
      l.takeWhile (fun e => strLe e.1 hi) = l.filter (fun e => strLe e.1 hi) := by
  intro l
  induction l with
  | nil => intro _; rfl
  | cons e rest ih =>
    intro hs
    have htail : chainB (fun a b => strLt a b) (rest.map Prod.fst) = true :=
      chainB_tail _ _ _ hs
    by_cases hle : strLe e.1 hi = true
    · rw [List.takeWhile_cons_of_pos (by simpa using hle),
        List.filter_cons_of_pos (by simpa using hle), ih htail]
    · rw [List.takeWhile_cons_of_neg (by simpa using hle),
        List.filter_cons_of_neg (by simpa using hle)]
      rw [eq_comm, List.filter_eq_nil_iff]
      intro x hx
      have hx1 : strLe e.1 x.1 = true := by
        have := chainB_head_le (l := (e :: rest).map Prod.fst) (d := e.1) hs x.1
          (by exact List.mem_map.mpr ⟨x, List.mem_cons_of_mem e hx, rfl⟩)
        simpa using this
      have hhi : strLt hi e.1 = true := by
        simp only [strLe, Bool.not_eq_true'] at hle
        simpa using hle
      have : strLt hi x.1 = true := strLt_of_lt_of_le hhi hx1
      simp [strLe, this]

/-- `chainB strLt` on the keys survives filtering. -/
theorem chainKeys_filter (l : List (Str × JSV)) (q : (Str × JSV) → Bool)
    (h : chainB (fun a b => strLt a b) (l.map Prod.fst) = true) :
    chainB (fun a b => strLt a b) ((l.filter q).map Prod.fst) = true := by
  rw [chainB_iff_chain'] at h ⊢
  rw [List.chain'_iff_pairwise] at h ⊢
  rw [List.pairwise_map] at h ⊢
  exact List.Pairwise.sublist (List.filter_sublist _) h

/-- `MemTable.range` on a sorted memtable is exactly the in-range filter. -/
theorem mtRange_eq_filter (m : MemTable) (lo hi : Str)
    (hs : chainB (fun a b => strLt a b) (m.entries.map Prod.fst) = true) :
    MemTable.range m lo hi =
      m.entries.filter (fun e => strLe lo e.1 && strLe e.1 hi) := by
  unfold MemTable.range
  rw [dropWhile_eq_filter_le lo m.entries hs,
    takeWhile_eq_filter_le hi _ (chainKeys_filter _ _ hs),
    List.filter_filter]
  exact List.filter_congr (fun a _ => by rw [Bool.and_comm])

/-- A well-formed table's range result is the in-range filter of its decoded
entry list. -/
theorem rangeList_eq_filter_decoded (t : Table) (lo hi : Str) :
    rangeList t lo hi =
      (tableEntriesDecoded t).filter (fun e => strLe lo e.1 && strLe e.1 hi) := by
  unfold rangeList tableEntriesDecoded
  rw [List.filter_map]
  exact congrArg (List.map _) (List.filter_congr (fun e _ => rfl))

theorem get_of_mem_nodup :
    ∀ (m : List (Str × JSV)), (m.map Prod.fst).Nodup →
      ∀ k v, (k, v) ∈ m → JsMap.get m k = some v := by
  intro m
  induction m with
  | nil => intro _ k v h; simp at h
  | cons e rest ih =>
    intro hnd k v h
    obtain ⟨k0, v0⟩ := e
    simp only [List.map_cons, List.nodup_cons] at hnd
    rcases List.mem_cons.mp h with heq | hmem
    · injection heq with h1 h2
      subst h1; subst h2
      simp [JsMap.get]
    · by_cases hek : k0 = k
      · subst hek
        exact absurd (List.mem_map.mpr ⟨(k0, v), hmem, rfl⟩) hnd.1
      · simp only [JsMap.get, if_neg hek]
        exact ih hnd.2 k v hmem

theorem keys_filter_getval :
    ∀ (m : List (Str × JSV)) (q : JSV → Bool), (m.map Prod.fst).Nodup →
      ∀ k, (k ∈ (m.filter (fun e => q e.2)).map Prod.fst ↔
        ∃ v, JsMap.get m k = some v ∧ q v = true) := by
  intro m
  induction m with
  | nil => intro q _ k; simp [JsMap.get]
  | cons e rest ih =>
    intro q hnd k
    obtain ⟨k0, v0⟩ := e
    simp only [List.map_cons, List.nodup_cons] at hnd
    rw [List.filter_cons]
    by_cases hq : q v0 = true
    · rw [if_pos (by simpa using hq)]
      by_cases hek : k0 = k
      · subst hek
        simp only [List.map_cons, List.mem_cons]
        constructor
        · intro _
          exact ⟨v0, by simp [JsMap.get], hq⟩
        · intro _
          exact Or.inl trivial
      · simp only [List.map_cons, List.mem_cons]
        rw [ih q hnd.2 k]
        constructor
        · rintro (h | h)
          · exact absurd h.symm hek
          · obtain ⟨v, hv, hqv⟩ := h
            exact ⟨v, by simp [JsMap.get, hek, hv], hqv⟩
        · rintro ⟨v, hv, hqv⟩
          right
          refine ⟨v, ?_, hqv⟩
          simpa [JsMap.get, hek] using hv
    · rw [if_neg (by simpa using hq)]
      by_cases hek : k0 = k
      · subst hek
        rw [ih q hnd.2 k0]
        constructor
        · rintro ⟨v, hv, hqv⟩
          have hnone := (JsMap.get_eq_none_iff rest k0).mpr hnd.1
          rw [hnone] at hv
          exact absurd hv (by simp)
        · rintro ⟨v, hv, hqv⟩
          have hg0 : JsMap.get ((k0, v0) :: rest) k0 = some v0 := by
            simp [JsMap.get]
          rw [hg0] at hv
          injection hv with hv0
          rw [← hv0] at hqv
          exact absurd hqv hq
      · rw [ih q hnd.2 k]
        constructor
        · rintro ⟨v, hv, hqv⟩
          exact ⟨v, by simp [JsMap.get, hek, hv], hqv⟩
        · rintro ⟨v, hv, hqv⟩
          refine ⟨v, ?_, hqv⟩
          simpa [JsMap.get, hek] using hv

/-- A comparator chain with pairwise-distinct keys is strictly ascending in
the locale order. -/
theorem chain'_lt_of_ne :
    ∀ l : List (Str × JSV),
      List.Chain' (fun a b => localeCompare a.1 b.1 ≠ .gt) l →
      (l.map Prod.fst).Nodup →
      List.Chain' (fun a b => localeCompare a.1 b.1 = .lt) l := by
  intro l
  induction l with
  | nil => intro _ _; exact List.chain'_nil
  | cons a rest ih =>
    intro h1 hnd
    cases rest with
    | nil => simp
    | cons b rest2 =>
      rw [List.chain'_cons] at h1 ⊢
      simp only [List.map_cons, List.nodup_cons] at hnd
      have hne : a.1 ≠ b.1 := by
        intro h
        exact hnd.1 (h ▸ List.mem_cons_self b.1 (rest2.map Prod.fst))
      refine ⟨?_, ih h1.2 (by simp only [List.map_cons, List.nodup_cons]; exact hnd.2)⟩
      rcases hcmp : localeCompare a.1 b.1 with _ | _ | _
      · rfl
      · exact absurd (localeCompare_eq_iff.mp hcmp) hne
      · exact absurd hcmp h1.1

/-- C3: the code diverges from the claimed ordering.  With live keys `"B"`
and `"a"`, `range("A", "b")` returns `[("a", 2), ("B", 1)]` — the final
`sort` uses `a.key.localeCompare(b.key)`, whose case-insensitive primary
weight puts `a` before `B` — yet `"a" < "B"` is false over code units, so
the returned keys are not strictly ascending in the code-unit order that
the claim states and that every other component (skip list, MemTable,
SSTable binary searches, block layout) relies on. -/
theorem c3_range_not_code_unit_sorted :
    LSMTree.range c3State (strOf "A") (strOf "b") =
      some [(strOf "a", .json (.num 2)), (strOf "B", .json (.num 1))] ∧
    strLt (strOf "a") (strOf "B") = false := by
  constructor
  · rfl
  · rfl

end KVS
